import Mathlib

/-!
# queue-discover: catalog, per-queue stores and the dispatch loop

A shallow embedding of `queue.go` and `handlers.go` (with the schema of
`main.go`).  Strings are lists of characters, the catalog is two lists of rows,
the file system is a map from paths to store files, and every operation
returns its result together with the new state and the list of storage and
delivery events it issued.  Failures of the database, the file system and the
queue store are inputs (fault flags), so a statement quantified over them
speaks about every outcome.
-/

set_option autoImplicit false

namespace QueueDiscover

/-! ## Strings, `%d` and `filepath.Join` -/

/-- Go strings, as lists of characters. -/
abbrev Str := List Char

/-- The decimal digit `d` as a character. -/
def digitChar : Nat → Char
  | 0 => '0' | 1 => '1' | 2 => '2' | 3 => '3' | 4 => '4'
  | 5 => '5' | 6 => '6' | 7 => '7' | 8 => '8' | _ => '9'

/-- Decimal digits of `n`, least significant first (`fuel` bounds the length). -/
def decDigits : Nat → Nat → List Nat
  | 0, _ => []
  | fuel + 1, n => if n < 10 then [n] else (n % 10) :: decDigits fuel (n / 10)

/-- The text of `fmt.Sprintf("%d", n)` for a natural number. -/
def fmtNat (n : Nat) : Str := ((decDigits (n + 1) n).reverse).map digitChar

/-- The text of `fmt.Sprintf("%d", i)` for an `int64`. -/
def fmtInt (i : Int) : Str :=
  if i < 0 then '-' :: fmtNat i.natAbs else fmtNat i.toNat

/-- The text of `strings.Join(elems, "/")`. -/
def joinSlash : List Str → Str
  | [] => []
  | [x] => x
  | x :: y :: rest => x ++ '/' :: joinSlash (y :: rest)

/-- The path elements of `p`: the pieces between separators. -/
def splitSlash : Str → List Str
  | [] => [[]]
  | c :: cs =>
    if c = '/' then [] :: splitSlash cs
    else match splitSlash cs with
      | [] => [[c]]
      | h :: t => (c :: h) :: t

/-- The element `..`. -/
def dotdot : Str := ['.', '.']

/-- One element of `filepath.Clean`: the kept elements are a stack, top first.
Empty elements and `.` are dropped; `..` removes the element before it,
is dropped at the root, and is kept at the start of a relative path. -/
def cleanStep (rooted : Bool) (st : List Str) (c : Str) : List Str :=
  if c = [] ∨ c = ['.'] then st
  else if c = dotdot then
    match st with
    | [] => if rooted then [] else [c]
    | t :: rest => if t = dotdot then c :: st else rest
  else c :: st

/-- Whether a path starts at the root. -/
def isRooted (p : Str) : Bool := p.head? == some '/'

/-- The kept elements of a path after `filepath.Clean`, top first. -/
def cleanStack (p : Str) : List Str :=
  (splitSlash p).foldl (cleanStep (isRooted p)) []

/-- Unix `filepath.Clean` by its documented rules: separators collapsed, `.`
dropped, inner `..` resolved, `..` at the root dropped, `.` for the empty
result. -/
def filepathClean (p : Str) : Str :=
  let body := joinSlash (cleanStack p).reverse
  let out := if isRooted p then '/' :: body else body
  if out = [] then ['.'] else out

/-- Unix `filepath.Join`: the elements from the first non-empty one on, joined
with the separator and cleaned; the empty string when all are empty. -/
def filepathJoin (elems : List Str) : Str :=
  match elems.dropWhile (fun e => e = []) with
  | [] => []
  | es => filepathClean (joinSlash es)

/-- The separator a cleaned path starts with: `/` for a rooted path. -/
def rootMark (p : Str) : Str := if isRooted p then ['/'] else []

/-- The kept elements of a path after `filepath.Clean`, in path order. -/
def dirStack (p : Str) : List Str := (cleanStack p).reverse

/-- What the workspaces directory contributes to every store path: its cleaned
form followed by a separator (nothing for the empty or the current directory). -/
def dirLead (dir : Str) : Str :=
  rootMark dir ++ (if dirStack dir = [] then [] else joinSlash (dirStack dir) ++ ['/'])

/-- A path element that `filepath.Clean` keeps as it is: not empty, not `.`,
not `..`, and without a separator. -/
def plainElement (c : Str) : Prop := c ≠ [] ∧ c ≠ ['.'] ∧ c ≠ dotdot ∧ '/' ∉ c

/-- The shape of the stack of `filepath.Clean`, top first: plain elements above
a run of `..`, which is empty for a rooted path. -/
def StackOK (rooted : Bool) (st : List Str) : Prop :=
  ∃ ns k, st = ns ++ List.replicate k dotdot ∧ (∀ c ∈ ns, plainElement c) ∧
    (rooted = true → k = 0)

/-- The number with the decimal digits `ds`, least significant first. -/
def digitsValue : List Nat → Nat
  | [] => 0
  | d :: ds => d + 10 * digitsValue ds

/-- The text `queues`. -/
def queuesLit : Str := ['q', 'u', 'e', 'u', 'e', 's']

/-- The text `.sqlite`. -/
def sqliteExt : Str := ['.', 's', 'q', 'l', 'i', 't', 'e']

/-- The store file of queue `id` in workspace `workspaceID`, as `deleteQueue`,
`emptyQueue`, `sendMessage` and `processQueueMessages` build it:
`filepath.Join(dir, "%d", "queues", "%d.sqlite")`. -/
def queuePath (dir : Str) (workspaceID id : Int) : Str :=
  filepathJoin [dir, fmtInt workspaceID, queuesLit, fmtInt id ++ sqliteExt]

/-- The directory `createQueue` makes: `filepath.Join(dir, "%d", "queues")`. -/
def queueDir (dir : Str) (workspaceID : Int) : Str :=
  filepathJoin [dir, fmtInt workspaceID, queuesLit]

/-- The store file as `createQueue` builds it:
`filepath.Join(queueDir, "%d.sqlite")`. -/
def createPath (dir : Str) (workspaceID id : Int) : Str :=
  filepathJoin [queueDir dir workspaceID, fmtInt id ++ sqliteExt]

/-- The goqite queue name `fmt.Sprintf("queue_%d", id)`. -/
def queueName (id : Int) : Str := ['q', 'u', 'e', 'u', 'e', '_'] ++ fmtInt id

/-! ## Data model -/

/-- A row of the `queues` table (`type Queue`). -/
structure Queue where
  id : Int
  workspaceID : Int
  name : Str
  description : Str
  cron : Str
  deriving DecidableEq, Repr

/-- A row of the `subscribers` table (`type Subscriber`). -/
structure Subscriber where
  id : Int
  queueID : Int
  webhookURL : Str
  deriving DecidableEq, Repr

/-- The catalog database of `initMetaDB`: the two tables in rowid order and the
`AUTOINCREMENT` counters that SQLite keeps for them. -/
structure Catalog where
  queues : List Queue
  subscribers : List Subscriber
  queueSeq : Int
  subSeq : Int
  deriving DecidableEq, Repr

/-- The catalog right after `initMetaDB` on a fresh database. -/
def Catalog.empty : Catalog := ⟨[], [], 0, 0⟩

/-- A message row of a queue store: identifier, queue name, payload, and the
time from which it is visible (the lease deadline while it is leased). -/
structure Message where
  id : Nat
  queue : Str
  body : Str
  timeout : Nat
  deriving DecidableEq, Repr

/-- A store file: its message rows in insertion order and the next fresh
message identifier. -/
structure Store where
  msgs : List Message
  nextID : Nat
  deriving DecidableEq, Repr

/-- The file system under the workspaces directory: the store file at each path. -/
abbrev Fs := Str → Option Store

/-- Catalog and file system together. -/
structure World where
  cat : Catalog
  fs : Fs

/-- The errors the code tells apart: `sql.ErrNoRows`, the store's not-found
report, and any other database, file-system or storage failure. -/
inductive Err
  | noRows
  | notFound
  | io
  deriving DecidableEq, Repr

/-- Result of a call: `nil`, an error, or still inside its `for` loop when the
fuel of the model ran out. -/
inductive Res
  | ok
  | err (e : Err)
  | running
  deriving DecidableEq, Repr

/-- What the code writes with `log.Printf`. -/
inductive LogMsg
  | webhookError (url : Str)
  | webhookStatus (url : Str) (code : Nat)
  | notifyError (queueID : Int)
  | deleteError (msgID : Nat) (queueID : Int)
  | queueError (queueID : Int)
  | queryError
  | scanError
  deriving DecidableEq, Repr

/-- The storage and delivery operations a call issues, in order. -/
inductive Ev
  | mkdir (path : Str)
  | setup (path : Str)
  | remove (path : Str)
  | send (path name body : Str)
  | receive (path name : Str)
  | delete (path name : Str) (msgID : Nat)
  | invoke (queueID workspaceID : Int)
  | notify (queueID : Int) (body : Str)
  | post (url payload : Str)
  | log (m : LogMsg)
  deriving DecidableEq, Repr

/-- The file with the entry at `path` removed. -/
def Fs.erase (fs : Fs) (path : Str) : Fs := fun p => if p = path then none else fs p

/-- The file system with `st` written at `path`. -/
def Fs.write (fs : Fs) (path : Str) (st : Store) : Fs :=
  fun p => if p = path then some st else fs p

/-! ## The queue store (goqite) -/

/-- Whether a message row is visible to a receiver of queue `name` at `now`. -/
def Message.visible (name : Str) (now : Nat) (m : Message) : Bool :=
  m.queue = name ∧ m.timeout ≤ now

/-- Modelled from the spec: the store library (goqite) is not part of the
sources.  Receive finds the oldest visible message of the queue and leases it
until `now + lease`; the rows keep their insertion order. -/
def leaseFirst (name : Str) (now lease : Nat) : List Message → Option (Message × List Message)
  | [] => none
  | m :: rest =>
    if m.visible name now then some (m, { m with timeout := now + lease } :: rest)
    else match leaseFirst name now lease rest with
      | none => none
      | some (r, rest1) => some (r, m :: rest1)

/-- Modelled from the spec: `Receive` of the store library.  A failing store, or
a path with no store file, gives a storage error; a store with no visible
message gives the empty result, which the callers read as `sql.ErrNoRows`;
otherwise the oldest visible message is leased and returned. -/
def storeReceive (fails : Bool) (now lease : Nat) (fs : Fs) (path name : Str) :
    Except Err (Message × Fs) :=
  if fails then .error .io
  else match fs path with
    | none => .error .io
    | some st =>
      match leaseFirst name now lease st.msgs with
      | none => .error .noRows
      | some (m, msgs1) => .ok (m, fs.write path { st with msgs := msgs1 })

/-- Modelled from the spec: `Delete` of the store library.  It removes the
message with that identifier whatever its visibility, and reports not-found
when the queue has no such message. -/
def storeDelete (fails : Bool) (fs : Fs) (path name : Str) (msgID : Nat) : Except Err Fs :=
  if fails then .error .io
  else match fs path with
    | none => .error .io
    | some st =>
      if st.msgs.any (fun m => m.queue = name ∧ m.id = msgID) then
        .ok (fs.write path
          { st with msgs := st.msgs.filter (fun m => ¬ (m.queue = name ∧ m.id = msgID)) })
      else .error .notFound

/-- Modelled from the spec: `Send` of the store library with no delay.  The new
message is appended and is visible from `now`. -/
def storeSend (fails : Bool) (now : Nat) (fs : Fs) (path name body : Str) : Except Err Fs :=
  if fails then .error .io
  else match fs path with
    | none => .error .io
    | some st =>
      .ok (fs.write path
        { msgs := st.msgs ++ [⟨st.nextID, name, body, now⟩], nextID := st.nextID + 1 })

/-! ## Catalog operations (`queue.go`) -/

/-- The rowid `AUTOINCREMENT` gives the next row: one more than the largest
rowid the table has ever held. -/
def nextRowID (seq : Int) (ids : List Int) : Int := ids.foldl max seq + 1

/-- Faults of one `createQueue` call. -/
structure CreateEnv where
  beginFails : Bool
  execFails : Bool
  mkdirFails : Bool
  openFails : Bool
  setupFails : Bool
  commitFails : Bool

/-- Go `createQueue`: insert the row in a transaction, create the store file,
commit.  Returns the result, the new state, the events and the queue with the
assigned id.  (`LastInsertId` of the SQLite driver has no failing outcome.) -/
def createQueue (dir : Str) (env : CreateEnv) (w : World) (q : Queue) :
    Res × World × List Ev × Queue :=
  if env.beginFails then (.err .io, w, [], q)
  else if env.execFails then (.err .io, w, [], q)
  else
    let q1 := { q with id := nextRowID w.cat.queueSeq (w.cat.queues.map (fun r => r.id)) }
    let queueDir := filepathJoin [dir, fmtInt q1.workspaceID, queuesLit]
    if env.mkdirFails then (.err .io, w, [.mkdir queueDir], q1)
    else if env.openFails then (.err .io, w, [.mkdir queueDir], q1)
    else
      let path := filepathJoin [queueDir, fmtInt q1.id ++ sqliteExt]
      if env.setupFails then (.err .io, w, [.mkdir queueDir, .setup path], q1)
      else
        let fs1 := w.fs.write path ((w.fs path).getD ⟨[], 0⟩)
        if env.commitFails then
          (.err .io, { w with fs := fs1 }, [.mkdir queueDir, .setup path], q1)
        else
          (.ok, ⟨{ w.cat with queues := w.cat.queues ++ [q1], queueSeq := q1.id }, fs1⟩,
            [.mkdir queueDir, .setup path], q1)

/-- Go `listQueues`: the rows of one workspace. -/
def listQueues (queryFails : Bool) (cat : Catalog) (workspaceID : Int) :
    Except Err (List Queue) :=
  if queryFails then .error .io
  else .ok (cat.queues.filter (fun r => r.workspaceID = workspaceID))

/-- The query `SELECT workspace_id FROM queues WHERE id = ?` scanned into an
`int64`: `sql.ErrNoRows` when no row has that id. -/
def lookupWorkspace (queryFails : Bool) (cat : Catalog) (id : Int) : Except Err Int :=
  if queryFails then .error .io
  else match cat.queues.find? (fun r => r.id = id) with
    | none => .error .noRows
    | some r => .ok r.workspaceID

/-- The statement `DELETE FROM queues WHERE id = ?`.  With foreign keys enforced
the `ON DELETE CASCADE` of the schema removes the queue's subscribers too. -/
def deleteQueueRow (foreignKeys : Bool) (cat : Catalog) (id : Int) : Catalog :=
  { cat with
    queues := cat.queues.filter (fun r => ¬ r.id = id)
    subscribers :=
      if foreignKeys then cat.subscribers.filter (fun s => ¬ s.queueID = id)
      else cat.subscribers }

/-- Faults of one `deleteQueue` call. -/
structure DeleteEnv where
  beginFails : Bool
  queryFails : Bool
  execFails : Bool
  removeFails : Bool
  commitFails : Bool

/-- Go `deleteQueue`: in one transaction look the workspace up and delete the
row, then remove the store file (a file that is not there is not an error),
then commit.  Every error return rolls the transaction back. -/
def deleteQueue (foreignKeys : Bool) (dir : Str) (env : DeleteEnv) (w : World) (id : Int) :
    Res × World × List Ev :=
  if env.beginFails then (.err .io, w, [])
  else match lookupWorkspace env.queryFails w.cat id with
    | .error e => (.err e, w, [])
    | .ok workspaceID =>
      if env.execFails then (.err .io, w, [])
      else
        let queuePath := filepathJoin [dir, fmtInt workspaceID, queuesLit, fmtInt id ++ sqliteExt]
        if env.removeFails then (.err .io, w, [.remove queuePath])
        else
          let fs1 := w.fs.erase queuePath
          if env.commitFails then (.err .io, { w with fs := fs1 }, [.remove queuePath])
          else (.ok, ⟨deleteQueueRow foreignKeys w.cat id, fs1⟩, [.remove queuePath])

/-- Go `addSubscriber`: one `INSERT`.  With foreign keys enforced the insert is
refused when the queue row does not exist. -/
def addSubscriber (foreignKeys : Bool) (execFails : Bool) (cat : Catalog) (queueID : Int)
    (webhookURL : Str) : Res × Catalog :=
  if execFails then (.err .io, cat)
  else if foreignKeys ∧ ¬ cat.queues.any (fun r => r.id = queueID) then (.err .io, cat)
  else
    let newID := nextRowID cat.subSeq (cat.subscribers.map (fun s => s.id))
    (.ok, { cat with subscribers := cat.subscribers ++ [⟨newID, queueID, webhookURL⟩],
                     subSeq := newID })

/-- Go `listSubscribers`: the subscriber rows of one queue. -/
def listSubscribers (queryFails : Bool) (cat : Catalog) (queueID : Int) :
    Except Err (List Subscriber) :=
  if queryFails then .error .io
  else .ok (cat.subscribers.filter (fun s => s.queueID = queueID))

/-- Go `removeSubscriber`: one `DELETE`, which succeeds whether or not a row
has that id. -/
def removeSubscriber (execFails : Bool) (cat : Catalog) (id : Int) : Res × Catalog :=
  if execFails then (.err .io, cat)
  else (.ok, { cat with subscribers := cat.subscribers.filter (fun s => ¬ s.id = id) })

/-! ## Store operations (`queue.go`) and the dispatch loop (`handlers.go`) -/

/-- What one turn of a receive loop meets: the clock, the faults of the store
and of the subscriber listing, and the answer of the webhook to the `j`-th
delivery attempt (`none` is a transport error, `some code` an HTTP status). -/
structure Tick where
  now : Nat
  receiveFails : Bool
  listFails : Bool
  deleteFails : Bool
  respond : Nat → Option Nat

/-- What one call of `emptyQueue` or `processQueueMessages` meets: whether
`sql.Open` fails, the lease duration of the store, and the `k`-th turn of its
loop. -/
structure LoopEnv where
  openFails : Bool
  lease : Nat
  tick : Nat → Tick

/-- The `for` loop of `emptyQueue`, from turn `k` on: receive, stop with `nil`
on the empty result and with the error on any other failure, delete, stop
with the error when the delete fails. -/
def emptyLoop (path name : Str) (env : LoopEnv) : Nat → Nat → Fs → Res × Fs × List Ev
  | 0, _, fs => (.running, fs, [])
  | fuel + 1, k, fs =>
    match storeReceive (env.tick k).receiveFails (env.tick k).now env.lease fs path name with
    | .error e =>
      if e = .noRows then (.ok, fs, [.receive path name])
      else (.err e, fs, [.receive path name])
    | .ok (msg, fs1) =>
      match storeDelete (env.tick k).deleteFails fs1 path name msg.id with
      | .error e => (.err e, fs1, [.receive path name, .delete path name msg.id])
      | .ok fs2 =>
        let r := emptyLoop path name env fuel (k + 1) fs2
        (r.1, r.2.1, .receive path name :: .delete path name msg.id :: r.2.2)

/-- Go `emptyQueue`. -/
def emptyQueue (fuel : Nat) (dir : Str) (env : LoopEnv) (fs : Fs) (id workspaceID : Int) :
    Res × Fs × List Ev :=
  let queuePath := filepathJoin [dir, fmtInt workspaceID, queuesLit, fmtInt id ++ sqliteExt]
  if env.openFails then (.err .io, fs, [])
  else emptyLoop queuePath (['q', 'u', 'e', 'u', 'e', '_'] ++ fmtInt id) env fuel 0 fs

/-- Faults and clock of one `sendMessage` call. -/
structure SendEnv where
  openFails : Bool
  sendFails : Bool
  now : Nat

/-- Go `sendMessage`. -/
def sendMessage (dir : Str) (env : SendEnv) (fs : Fs) (id workspaceID : Int) (message : Str) :
    Res × Fs × List Ev :=
  let queuePath := filepathJoin [dir, fmtInt workspaceID, queuesLit, fmtInt id ++ sqliteExt]
  let name := ['q', 'u', 'e', 'u', 'e', '_'] ++ fmtInt id
  if env.openFails then (.err .io, fs, [])
  else match storeSend env.sendFails env.now fs queuePath name message with
    | .error e => (.err e, fs, [.send queuePath name message])
    | .ok fs1 => (.ok, fs1, [.send queuePath name message])

/-- The goroutines `notifySubscribers` starts, in the order it starts them (the
`j`-th for the `j`-th subscriber): each posts the message to the webhook URL
and logs a transport error or a status outside 200..299. -/
def deliver (respond : Nat → Option Nat) (message : Str) : Nat → List Subscriber → List Ev
  | _, [] => []
  | j, sub :: rest =>
    (.post sub.webhookURL message ::
      (match respond j with
        | none => [.log (.webhookError sub.webhookURL)]
        | some code =>
          if code < 200 ∨ code ≥ 300 then [.log (.webhookStatus sub.webhookURL code)] else []))
    ++ deliver respond message (j + 1) rest

/-- Go `QueueHandler.notifySubscribers`: list the subscribers of the queue and
start one delivery per row; the only error is that of the listing. -/
def notifySubscribers (listFails : Bool) (respond : Nat → Option Nat) (cat : Catalog)
    (queueID : Int) (message : Str) : Res × List Ev :=
  match listSubscribers listFails cat queueID with
  | .error e => (.err e, [.notify queueID message])
  | .ok subscribers => (.ok, .notify queueID message :: deliver respond message 0 subscribers)

/-- The `for` loop of `processQueueMessages`, from turn `k` on: receive, stop
with `nil` on the empty result and with the error on any other failure, notify
the subscribers (an error is logged), delete (an error is logged), and go on. -/
def processLoop (path name : Str) (queueID : Int) (env : LoopEnv) (cat : Catalog) :
    Nat → Nat → Fs → Res × Fs × List Ev
  | 0, _, fs => (.running, fs, [])
  | fuel + 1, k, fs =>
    match storeReceive (env.tick k).receiveFails (env.tick k).now env.lease fs path name with
    | .error e =>
      if e = .noRows then (.ok, fs, [.receive path name])
      else (.err e, fs, [.receive path name])
    | .ok (msg, fs1) =>
      let n := notifySubscribers (env.tick k).listFails (env.tick k).respond cat queueID msg.body
      let nlog : List Ev := if n.1 = .ok then [] else [.log (.notifyError queueID)]
      match storeDelete (env.tick k).deleteFails fs1 path name msg.id with
      | .error _ =>
        let r := processLoop path name queueID env cat fuel (k + 1) fs1
        (r.1, r.2.1, .receive path name :: (n.2 ++ nlog ++
          [.delete path name msg.id, .log (.deleteError msg.id queueID)] ++ r.2.2))
      | .ok fs2 =>
        let r := processLoop path name queueID env cat fuel (k + 1) fs2
        (r.1, r.2.1, .receive path name :: (n.2 ++ nlog ++ [.delete path name msg.id] ++ r.2.2))

/-- Go `QueueHandler.processQueueMessages`. -/
def processQueueMessages (fuel : Nat) (dir : Str) (env : LoopEnv) (cat : Catalog) (fs : Fs)
    (queueID workspaceID : Int) : Res × Fs × List Ev :=
  let queuePath :=
    filepathJoin [dir, fmtInt workspaceID, queuesLit, fmtInt queueID ++ sqliteExt]
  if env.openFails then (.err .io, fs, [])
  else processLoop queuePath (['q', 'u', 'e', 'u', 'e', '_'] ++ fmtInt queueID) queueID env cat
    fuel 0 fs

/-- What one call of `processMessages` meets: whether the listing query fails,
whether `rows.Next` ends the listing at row `j`, whether `rows.Scan` fails at
row `j`, and what the call for row `j` meets. -/
structure DispatchEnv where
  queryFails : Bool
  nextFails : Nat → Bool
  scanFails : Nat → Bool
  queue : Nat → LoopEnv

/-- The `for rows.Next()` loop of `processMessages` from row `j` on: a row that
does not scan is skipped, every other row gets one `processQueueMessages` call
whose error is logged.  A call that has not returned keeps the loop waiting. -/
def processRows (fuel : Nat) (dir : Str) (env : DispatchEnv) (cat : Catalog) :
    Nat → List Queue → Fs → Res × Fs × List Ev
  | _, [], fs => (.ok, fs, [])
  | j, row :: rest, fs =>
    if env.nextFails j then (.ok, fs, [])
    else if env.scanFails j then
      let r := processRows fuel dir env cat (j + 1) rest fs
      (r.1, r.2.1, .log .scanError :: r.2.2)
    else
      let c := processQueueMessages fuel dir (env.queue j) cat fs row.id row.workspaceID
      if c.1 = .running then (.running, c.2.1, .invoke row.id row.workspaceID :: c.2.2)
      else
        let clog : List Ev := if c.1 = .ok then [] else [.log (.queueError row.id)]
        let r := processRows fuel dir env cat (j + 1) rest c.2.1
        (r.1, r.2.1, .invoke row.id row.workspaceID :: (c.2.2 ++ clog ++ r.2.2))

/-- Go `QueueHandler.processMessages`: one tick of the dispatch loop over the
rows of `SELECT id, workspace_id FROM queues`. -/
def processMessages (fuel : Nat) (dir : Str) (env : DispatchEnv) (w : World) :
    Res × Fs × List Ev :=
  if env.queryFails then (.ok, w.fs, [.log .queryError])
  else processRows fuel dir env w.cat 0 w.cat.queues w.fs

/-! ## HTTP handlers (`handlers.go`)

A request is given by what the handler reads from it: the result of
`strconv.ParseInt` on the path variable and the result of decoding the body.
The answer is the status code. -/

/-- Go `QueueHandler.DeleteQueue`. -/
def handleDeleteQueue (foreignKeys : Bool) (dir : Str) (env : DeleteEnv) (w : World)
    (id : Option Int) : Nat × World × List Ev :=
  match id with
  | none => (400, w, [])
  | some id =>
    let r := deleteQueue foreignKeys dir env w id
    if r.1 = .ok then (204, r.2.1, r.2.2) else (500, r.2.1, r.2.2)

/-- Go `QueueHandler.EmptyQueue`; no status while `emptyQueue` is in its loop. -/
def handleEmptyQueue (fuel : Nat) (dir : Str) (queryFails : Bool) (env : LoopEnv) (w : World)
    (id : Option Int) : Option Nat × World × List Ev :=
  match id with
  | none => (some 400, w, [])
  | some id =>
    match lookupWorkspace queryFails w.cat id with
    | .error _ => (some 404, w, [])
    | .ok workspaceID =>
      let r := emptyQueue fuel dir env w.fs id workspaceID
      (match r.1 with
        | .ok => some 204
        | .err _ => some 500
        | .running => none, { w with fs := r.2.1 }, r.2.2)

/-- Go `QueueHandler.AddSubscriber`. -/
def handleAddSubscriber (foreignKeys : Bool) (execFails : Bool) (w : World) (id : Option Int)
    (body : Option Subscriber) : Nat × World × List Ev :=
  match id with
  | none => (400, w, [])
  | some queueID =>
    match body with
    | none => (400, w, [])
    | some sub =>
      let r := addSubscriber foreignKeys execFails w.cat queueID sub.webhookURL
      if r.1 = .ok then (201, { w with cat := r.2 }, []) else (500, { w with cat := r.2 }, [])

/-- Go `QueueHandler.RemoveSubscriber`. -/
def handleRemoveSubscriber (execFails : Bool) (w : World) (subID : Option Int) :
    Nat × World × List Ev :=
  match subID with
  | none => (400, w, [])
  | some subID =>
    let r := removeSubscriber execFails w.cat subID
    if r.1 = .ok then (204, { w with cat := r.2 }, []) else (500, { w with cat := r.2 }, [])

/-- Go `QueueHandler.SendMessage`: the body is decoded before the queue is
looked up. -/
def handleSendMessage (dir : Str) (queryFails : Bool) (env : SendEnv) (w : World)
    (id : Option Int) (content : Option Str) : Nat × World × List Ev :=
  match id with
  | none => (400, w, [])
  | some id =>
    match content with
    | none => (400, w, [])
    | some content =>
      match lookupWorkspace queryFails w.cat id with
      | .error _ => (404, w, [])
      | .ok workspaceID =>
        let r := sendMessage dir env w.fs id workspaceID content
        if r.1 = .ok then (202, { w with fs := r.2.1 }, r.2.2)
        else (500, { w with fs := r.2.1 }, r.2.2)

/-! ## Sequences of catalog calls and views of the event list -/

/-- One call of the four catalog mutations, with the faults it meets. -/
inductive CatalogCall
  | create (env : CreateEnv) (q : Queue)
  | delete (env : DeleteEnv) (id : Int)
  | subscribe (execFails : Bool) (queueID : Int) (webhookURL : Str)
  | unsubscribe (execFails : Bool) (id : Int)

/-- The state after one catalog call. -/
def applyCall (foreignKeys : Bool) (dir : Str) (w : World) : CatalogCall → World
  | .create env q => (createQueue dir env w q).2.1
  | .delete env id => (deleteQueue foreignKeys dir env w id).2.1
  | .subscribe execFails queueID url =>
    { w with cat := (addSubscriber foreignKeys execFails w.cat queueID url).2 }
  | .unsubscribe execFails id => { w with cat := (removeSubscriber execFails w.cat id).2 }

/-- The state after a sequence of catalog calls. -/
def runCalls (foreignKeys : Bool) (dir : Str) (w : World) (calls : List CatalogCall) : World :=
  calls.foldl (applyCall foreignKeys dir) w

/-- The fresh system: empty catalog, no store file. -/
def World.empty : World := ⟨Catalog.empty, fun _ => none⟩

/-- No fault in `deleteQueue`. -/
def DeleteEnv.noFault : DeleteEnv := ⟨false, false, false, false, false⟩

/-- Only the commit fails in `deleteQueue`. -/
def DeleteEnv.commitFault : DeleteEnv := ⟨false, false, false, false, true⟩

/-- No fault in `createQueue`. -/
def CreateEnv.noFault : CreateEnv := ⟨false, false, false, false, false, false⟩

/-- Every subscriber row refers to a queue row that exists. -/
def Catalog.subscribersHaveQueue (cat : Catalog) : Prop :=
  ∀ s ∈ cat.subscribers, ∃ q ∈ cat.queues, q.id = s.queueID

/-- The delivery attempts in an event list: webhook URL and payload. -/
def posts (tr : List Ev) : List (Str × Str) :=
  tr.filterMap (fun e => match e with | .post url payload => some (url, payload) | _ => none)

/-- The `notifySubscribers` calls in an event list: queue id and message body. -/
def notifications (tr : List Ev) : List (Int × Str) :=
  tr.filterMap (fun e => match e with | .notify q body => some (q, body) | _ => none)

/-- The message identifiers of the `Delete` calls in an event list. -/
def deletions (tr : List Ev) : List Nat :=
  tr.filterMap (fun e => match e with | .delete _ _ msgID => some msgID | _ => none)

/-- The `processQueueMessages` calls in an event list: queue id and workspace id. -/
def invocations (tr : List Ev) : List (Int × Int) :=
  tr.filterMap (fun e => match e with | .invoke q ws => some (q, ws) | _ => none)

/-- Whether an event is a `Receive` call. -/
def Ev.isReceive : Ev → Bool
  | .receive _ _ => true
  | _ => false

/-- The number of `Receive` calls in an event list. -/
def receives (tr : List Ev) : Nat := tr.countP Ev.isReceive

/-- The store a storage event addresses: file path and, for a queue
operation, the queue name. -/
def Ev.address : Ev → Option (Str × Option Str)
  | .setup path => some (path, none)
  | .remove path => some (path, none)
  | .send path name _ => some (path, some name)
  | .receive path name => some (path, some name)
  | .delete path name _ => some (path, some name)
  | _ => none

/-- The events of draining the messages `msgs` of a store one by one: a
`Receive` and a `Delete` for each, in order, and the last, empty `Receive`. -/
def drainEvents (path name : Str) : List Message → List Ev
  | [] => [.receive path name]
  | m :: rest => .receive path name :: .delete path name m.id :: drainEvents path name rest

/-- A loop environment with no fault, a clock standing at `now`, and every
webhook answering 200. -/
def LoopEnv.calm (now lease : Nat) : LoopEnv :=
  ⟨false, lease, fun _ => ⟨now, false, false, false, fun _ => some 200⟩⟩

/-- The number of message rows in the store file at `p` (0 when there is none). -/
def Fs.size (fs : Fs) (p : Str) : Nat :=
  match fs p with
  | none => 0
  | some st => st.msgs.length

/-- Whether an event is a delivery attempt or a log line (no storage
operation, no call of the dispatch loop). -/
def Ev.isNoise : Ev → Bool
  | .post _ _ => true
  | .log _ => true
  | _ => false

/-- An event of the dispatch of queue `queueID` stored at `path` under `name`:
a `Receive` or `Delete` on that store, a `notifySubscribers` call for that
queue, a delivery attempt or a log line. -/
def Ev.ofQueue (path name : Str) (queueID : Int) (e : Ev) : Prop :=
  Ev.isNoise e = true ∨ (∃ body, e = .notify queueID body) ∨ e = .receive path name ∨
    ∃ msgID, e = .delete path name msgID

/-- Two visible messages of queue 1, for the examples. -/
def sampleMessages : List Message := [⟨0, queueName 1, ['a'], 0⟩, ⟨1, queueName 1, ['b'], 0⟩]

/-- A loop environment whose only fault is the `Delete` of the first turn. -/
def LoopEnv.firstDeleteFails : LoopEnv :=
  ⟨false, 5, fun k => ⟨0, false, false, decide (k = 0), fun _ => some 200⟩⟩

/-- A loop environment whose only fault is the `Receive` of the second turn. -/
def LoopEnv.secondReceiveFails : LoopEnv :=
  ⟨false, 5, fun k => ⟨0, decide (k = 1), false, false, fun _ => some 200⟩⟩

/-- A dispatch environment with no fault in the listing, the given lease, the
clock at `now`, and for every queue the loop environment `q`. -/
def DispatchEnv.listing (q : LoopEnv) : DispatchEnv :=
  ⟨false, fun _ => false, fun _ => false, fun _ => q⟩

/-- A workspaces directory for the examples: `/home/workspaces`, the default of
the `-workspaces` flag. -/
def sampleDir : Str := "/home/workspaces".toList

/-- A queue row for the examples: queue 1 of workspace 1. -/
def sampleQueue : Queue := ⟨1, 1, ['q'], [], []⟩

/-- A state for the examples: the row of queue 1 and its (empty) store file. -/
def sampleWorld : World :=
  ⟨⟨[sampleQueue], [], 1, 0⟩, Fs.write (fun _ => none) (queuePath sampleDir 1 1) ⟨[], 0⟩⟩

/-- A state for the examples: the row of queue 1 and its store holding the two
example messages. -/
def sampleLoaded : World :=
  ⟨⟨[sampleQueue], [], 1, 0⟩,
    Fs.write (fun _ => none) (queuePath sampleDir 1 1) ⟨sampleMessages, 2⟩⟩

/-- A file system for the examples: the store of queue 1 holding the two
example messages. -/
def sampleFs : Fs := Fs.write (fun _ => none) (queuePath sampleDir 1 1) ⟨sampleMessages, 2⟩

/-! ## Worked values -/

theorem fmtInt_values :
    fmtInt 1203 = ['1', '2', '0', '3'] ∧ fmtInt (-45) = ['-', '4', '5'] ∧ fmtInt 0 = ['0'] := by
  decide

theorem filepathClean_values :
    filepathClean "/../a/./b/..".toList = "/a".toList ∧ filepathClean "".toList = ".".toList ∧
    filepathClean "a//b/../../..".toList = "..".toList := by
  decide

theorem queuePath_values :
    queuePath "/home/workspaces".toList 5 7 = "/home/workspaces/5/queues/7.sqlite".toList ∧
    createPath "/home//ws/../workspaces/".toList 5 7
      = "/home/workspaces/5/queues/7.sqlite".toList ∧
    queuePath "".toList 5 7 = "5/queues/7.sqlite".toList ∧
    queuePath "../a/../..".toList 5 7 = "../../5/queues/7.sqlite".toList ∧
    queueName 12 = "queue_12".toList := by
  decide

/-! ## `deleteQueue` -/

theorem lookupWorkspace_of_mem {cat : Catalog} {q : Queue}
    (hpk : (cat.queues.map (fun r => r.id)).Nodup) (hq : q ∈ cat.queues) :
    lookupWorkspace false cat q.id = .ok q.workspaceID := by
  unfold lookupWorkspace
  generalize cat.queues = l at hpk hq
  induction l with
  | nil => cases hq
  | cons r rest ih =>
    simp only [List.map_cons, List.nodup_cons, List.mem_map, not_exists, not_and] at hpk
    rcases List.mem_cons.1 hq with h | h
    · subst h; simp
    · have hne : r.id ≠ q.id := fun e => hpk.1 q h e.symm
      have := ih hpk.2 h
      simpa [List.find?_cons, hne] using this

theorem lookupWorkspace_absent {cat : Catalog} {id : Int} (fails : Bool)
    (h : ∀ q ∈ cat.queues, q.id ≠ id) :
    ∃ e, lookupWorkspace fails cat id = .error e := by
  unfold lookupWorkspace
  cases fails
  · have : cat.queues.find? (fun r => decide (r.id = id)) = none := by
      rw [List.find?_eq_none]; intro q hq; simpa using h q hq
    simp [this]
  · simp

theorem lookupWorkspace_ok_fails {fails : Bool} {cat : Catalog} {id ws : Int}
    (h : lookupWorkspace fails cat id = .ok ws) : fails = false := by
  cases fails
  · rfl
  · simp [lookupWorkspace] at h

/-- C1 (as stated, refuted): with the row of queue 1 and its store file in
place, a `deleteQueue` whose commit fails returns an error, the row is still
in the catalog and the store file is gone. -/
theorem deleteQueue_commit_failure_dangling_row :
    (deleteQueue false sampleDir DeleteEnv.commitFault sampleWorld 1).1 = .err .io ∧
    sampleQueue ∈
      (deleteQueue false sampleDir DeleteEnv.commitFault sampleWorld 1).2.1.cat.queues ∧
    sampleWorld.fs (queuePath sampleDir 1 1) = some ⟨[], 0⟩ ∧
    (deleteQueue false sampleDir DeleteEnv.commitFault sampleWorld 1).2.1.fs
      (queuePath sampleDir 1 1) = none := by
  refine ⟨by decide, by decide, by decide, by decide⟩

theorem deleteQueue_error_inv (foreignKeys : Bool) (dir : Str) (env : DeleteEnv) (w : World)
    (id : Int) (herr : (deleteQueue foreignKeys dir env w id).1 ≠ .ok) :
    (deleteQueue foreignKeys dir env w id).2.1.cat = w.cat ∧
    ((deleteQueue foreignKeys dir env w id).2.1.fs = w.fs ∨
      (env.commitFails = true ∧ env.removeFails = false ∧
        ∃ ws, lookupWorkspace env.queryFails w.cat id = .ok ws ∧
          (deleteQueue foreignKeys dir env w id).2.1.fs = w.fs.erase (queuePath dir ws id))) := by
  unfold deleteQueue at herr ⊢
  by_cases hb : env.beginFails = true
  · simp [hb]
  · cases hl : lookupWorkspace env.queryFails w.cat id with
    | error e => simp [hb]
    | ok ws =>
      by_cases he : env.execFails = true
      · simp [hb, he]
      · by_cases hr : env.removeFails = true
        · simp [hb, he, hr]
        · by_cases hc : env.commitFails = true
          · simp [hb, he, hr, hc, queuePath]
          · simp [hb, hl, he, hr, hc] at herr

/-- C1 (amended): whenever `deleteQueue` returns an error the catalog is
unchanged.  The store files are unchanged too, except after a commit failure,
where the store file of the queue has been removed while its row remains. -/
theorem deleteQueue_error_state (foreignKeys : Bool) (dir : Str) (env : DeleteEnv) (w : World)
    (id : Int) (herr : (deleteQueue foreignKeys dir env w id).1 ≠ .ok) :
    (deleteQueue foreignKeys dir env w id).2.1.cat = w.cat ∧
    ((deleteQueue foreignKeys dir env w id).2.1.fs = w.fs ∨
      (env.commitFails = true ∧ env.removeFails = false ∧
        ∃ ws, lookupWorkspace env.queryFails w.cat id = .ok ws ∧
          (deleteQueue foreignKeys dir env w id).2.1.fs = w.fs.erase (queuePath dir ws id))) :=
  deleteQueue_error_inv foreignKeys dir env w id herr

/-- C1 (amended), at the commit failure of the example state. -/
theorem deleteQueue_error_state_witness :
    (deleteQueue false sampleDir DeleteEnv.commitFault sampleWorld 1).1 ≠ .ok ∧
    ((deleteQueue false sampleDir DeleteEnv.commitFault sampleWorld 1).2.1.cat = sampleWorld.cat ∧
    ((deleteQueue false sampleDir DeleteEnv.commitFault sampleWorld 1).2.1.fs = sampleWorld.fs ∨
      (DeleteEnv.commitFault.commitFails = true ∧ DeleteEnv.commitFault.removeFails = false ∧
        ∃ ws, lookupWorkspace DeleteEnv.commitFault.queryFails sampleWorld.cat 1 = .ok ws ∧
          (deleteQueue false sampleDir DeleteEnv.commitFault sampleWorld 1).2.1.fs
            = sampleWorld.fs.erase (queuePath sampleDir ws 1)))) :=
  ⟨by decide, deleteQueue_error_state false sampleDir DeleteEnv.commitFault sampleWorld 1
    (by decide)⟩

theorem deleteQueue_ok_inv {foreignKeys : Bool} {dir : Str} {env : DeleteEnv} {w : World}
    {id : Int} (hok : (deleteQueue foreignKeys dir env w id).1 = .ok) :
    ∃ ws, lookupWorkspace env.queryFails w.cat id = .ok ws ∧
      deleteQueue foreignKeys dir env w id =
        (.ok, ⟨deleteQueueRow foreignKeys w.cat id, w.fs.erase (queuePath dir ws id)⟩,
          [.remove (queuePath dir ws id)]) := by
  unfold deleteQueue at hok ⊢
  by_cases hb : env.beginFails = true
  · simp [hb] at hok
  · cases hl : lookupWorkspace env.queryFails w.cat id with
    | error e => simp [hb, hl] at hok
    | ok ws =>
      by_cases he : env.execFails = true
      · simp [hb, hl, he] at hok
      · by_cases hr : env.removeFails = true
        · simp [hb, hl, he, hr] at hok
        · by_cases hc : env.commitFails = true
          · simp [hb, hl, he, hr, hc] at hok
          · simp [hb, he, hr, hc, queuePath]

/-- C2: after a `deleteQueue` of queue `i` of workspace `ws` that returns `nil`,
no catalog row has id `i` and no listing contains it, no file is at the store
path of `(ws, i)`, the other queue rows and the other store files are as
before, and `SendMessage` (with a body that decodes) and `EmptyQueue` for `i`
answer 404 with the state untouched and no storage operation issued. -/
theorem deleteQueue_success (foreignKeys : Bool) (dir : Str) (env : DeleteEnv) (w : World)
    (i ws : Int) (hpk : (w.cat.queues.map (fun r => r.id)).Nodup)
    (hrow : ∃ q ∈ w.cat.queues, q.id = i ∧ q.workspaceID = ws)
    (hok : (deleteQueue foreignKeys dir env w i).1 = .ok) :
    (∀ q ∈ (deleteQueue foreignKeys dir env w i).2.1.cat.queues, q.id ≠ i) ∧
    (∀ queryFails workspaceID l,
      listQueues queryFails (deleteQueue foreignKeys dir env w i).2.1.cat workspaceID = .ok l →
        ∀ q ∈ l, q.id ≠ i) ∧
    (deleteQueue foreignKeys dir env w i).2.1.fs (queuePath dir ws i) = none ∧
    (deleteQueue foreignKeys dir env w i).2.1.cat.queues
      = w.cat.queues.filter (fun q => ¬ q.id = i) ∧
    (∀ p, p ≠ queuePath dir ws i → (deleteQueue foreignKeys dir env w i).2.1.fs p = w.fs p) ∧
    (∀ queryFails senv content,
      handleSendMessage dir queryFails senv (deleteQueue foreignKeys dir env w i).2.1 (some i)
        (some content) = (404, (deleteQueue foreignKeys dir env w i).2.1, [])) ∧
    (∀ fuel queryFails lenv,
      handleEmptyQueue fuel dir queryFails lenv (deleteQueue foreignKeys dir env w i).2.1 (some i)
        = (some 404, (deleteQueue foreignKeys dir env w i).2.1, [])) := by
  obtain ⟨ws1, hl, heq⟩ := deleteQueue_ok_inv hok
  obtain ⟨q, hq, hqi, hqw⟩ := hrow
  have hf := lookupWorkspace_ok_fails hl
  have hl2 := lookupWorkspace_of_mem hpk hq
  rw [hqi, hqw, ← hf, hl] at hl2
  cases hl2
  rw [heq]
  have habs : ∀ q ∈ (deleteQueueRow foreignKeys w.cat i).queues, q.id ≠ i := by
    intro q hq
    simpa [deleteQueueRow] using (List.mem_filter.1 hq).2
  refine ⟨habs, ?_, ?_, rfl, ?_, ?_, ?_⟩
  · intro queryFails workspaceID l hl q hq
    cases queryFails
    · simp only [listQueues, Bool.false_eq_true, if_false, Except.ok.injEq] at hl
      subst hl
      exact habs q (List.mem_filter.1 hq).1
    · simp [listQueues] at hl
  · simp [Fs.erase]
  · intro p hp; simp [Fs.erase, hp]
  · intro queryFails senv content
    obtain ⟨e, he⟩ := lookupWorkspace_absent queryFails habs
    simp [handleSendMessage, he]
  · intro fuel queryFails lenv
    obtain ⟨e, he⟩ := lookupWorkspace_absent queryFails habs
    simp [handleEmptyQueue, he]

/-- C2, at the deletion of queue 1 from the example state. -/
theorem deleteQueue_success_witness :
    (sampleWorld.cat.queues.map (fun r => r.id)).Nodup ∧
    (∃ q ∈ sampleWorld.cat.queues, q.id = 1 ∧ q.workspaceID = 1) ∧
    (deleteQueue false sampleDir DeleteEnv.noFault sampleWorld 1).1 = .ok ∧
    (deleteQueue false sampleDir DeleteEnv.noFault sampleWorld 1).2.1.fs
      (queuePath sampleDir 1 1) = none :=
  ⟨by decide, ⟨sampleQueue, by decide, by decide, by decide⟩, by decide,
    (deleteQueue_success false sampleDir DeleteEnv.noFault sampleWorld 1 1 (by decide)
      ⟨sampleQueue, by decide, by decide, by decide⟩ (by decide)).2.2.1⟩

/-! ## Requests for a queue or subscriber that does not exist -/

/-- C6 (as stated, refuted): on the fresh system, where no subscriber exists,
`RemoveSubscriber` for subscriber 7 answers 204. -/
theorem removeSubscriber_absent_answers_204 :
    (∀ s ∈ World.empty.cat.subscribers, s.id ≠ 7) ∧
    (handleRemoveSubscriber false World.empty (some 7)).1 = 204 := by
  refine ⟨by decide, by decide⟩

/-- C6 (amended): for a queue id with no catalog row, `DeleteQueue` answers 500
and `EmptyQueue` answers 404, `SendMessage` answers 404 (400 when its body does
not decode), each leaving catalog and store files as they were and issuing no
storage operation; for a subscriber id with no row, `RemoveSubscriber` leaves
the state as it was and answers 204 (500 only when its `DELETE` fails). -/
theorem absent_id_requests (foreignKeys : Bool) (dir : Str) (w : World) (id subID : Int)
    (hq : ∀ q ∈ w.cat.queues, q.id ≠ id) (hs : ∀ s ∈ w.cat.subscribers, s.id ≠ subID) :
    (∀ env, handleDeleteQueue foreignKeys dir env w (some id) = (500, w, [])) ∧
    (∀ fuel queryFails env,
      handleEmptyQueue fuel dir queryFails env w (some id) = (some 404, w, [])) ∧
    (∀ queryFails env content,
      handleSendMessage dir queryFails env w (some id) content
        = (if content.isSome then 404 else 400, w, [])) ∧
    (∀ execFails,
      handleRemoveSubscriber execFails w (some subID)
        = (if execFails then 500 else 204, w, [])) := by
  refine ⟨?_, ?_, ?_, ?_⟩
  · intro env
    obtain ⟨e, he⟩ := lookupWorkspace_absent env.queryFails hq
    by_cases hb : env.beginFails = true
    · simp [handleDeleteQueue, deleteQueue, hb]
    · simp [handleDeleteQueue, deleteQueue, hb, he]
  · intro fuel queryFails env
    obtain ⟨e, he⟩ := lookupWorkspace_absent queryFails hq
    simp [handleEmptyQueue, he]
  · intro queryFails env content
    obtain ⟨e, he⟩ := lookupWorkspace_absent queryFails hq
    cases content <;> simp [handleSendMessage, he]
  · intro execFails
    cases execFails
    · have hfil : w.cat.subscribers.filter (fun s => ¬ s.id = subID) = w.cat.subscribers := by
        rw [List.filter_eq_self]; intro s hs1; simpa using hs s hs1
      simp only [handleRemoveSubscriber, removeSubscriber, Bool.false_eq_true, if_false, hfil,
        if_true]
    · simp [handleRemoveSubscriber, removeSubscriber]

/-- C6 (amended), on the fresh system. -/
theorem absent_id_requests_witness :
    (∀ q ∈ World.empty.cat.queues, q.id ≠ 3) ∧ (∀ s ∈ World.empty.cat.subscribers, s.id ≠ 7) ∧
    (∀ env, handleDeleteQueue false sampleDir env World.empty (some 3) = (500, World.empty, [])) :=
  ⟨by decide, by decide,
    (absent_id_requests false sampleDir World.empty 3 7 (by decide) (by decide)).1⟩

/-! ## Subscribers and their queues -/

/-- C7 (the code at the failing input): with foreign keys not enforced, as on
the connection `main` opens, `addSubscriber` for queue 1 on the fresh system
stores a subscriber row though no queue row exists; and after creating queue
1, subscribing to it and deleting it, the subscriber is still listed. -/
theorem subscriber_without_queue :
    (runCalls false sampleDir World.empty [.subscribe false 1 ['u']]).cat.queues = [] ∧
    (runCalls false sampleDir World.empty [.subscribe false 1 ['u']]).cat.subscribers
      = [⟨1, 1, ['u']⟩] ∧
    (deleteQueue false sampleDir DeleteEnv.noFault
      (runCalls false sampleDir World.empty
        [.create CreateEnv.noFault sampleQueue, .subscribe false 1 ['u']]) 1).1 = .ok ∧
    listSubscribers false
      (runCalls false sampleDir World.empty
        [.create CreateEnv.noFault sampleQueue, .subscribe false 1 ['u'],
          .delete DeleteEnv.noFault 1]).cat 1 = .ok [⟨1, 1, ['u']⟩] := by
  refine ⟨by decide, by decide, by decide, by rfl⟩

theorem applyCall_subscribersHaveQueue (dir : Str) (w : World) (c : CatalogCall)
    (h : w.cat.subscribersHaveQueue) : (applyCall true dir w c).cat.subscribersHaveQueue := by
  cases c with
  | create env q =>
    simp only [applyCall, createQueue]
    split_ifs <;> try exact h
    intro s hs
    obtain ⟨r, hr, hrs⟩ := h s hs
    exact ⟨r, List.mem_append_left _ hr, hrs⟩
  | delete env id =>
    simp only [applyCall]
    by_cases hok : (deleteQueue true dir env w id).1 = .ok
    · obtain ⟨ws, -, heq⟩ := deleteQueue_ok_inv hok
      rw [heq]
      intro s hs
      simp only [deleteQueueRow, if_true, List.mem_filter, decide_eq_true_eq] at hs
      obtain ⟨r, hr, hrs⟩ := h s hs.1
      refine ⟨r, ?_, hrs⟩
      simp only [deleteQueueRow, List.mem_filter, decide_eq_true_eq]
      exact ⟨hr, by rw [hrs]; simpa using hs.2⟩
    · rw [Catalog.subscribersHaveQueue, (deleteQueue_error_inv true dir env w id hok).1]
      exact h
  | subscribe execFails queueID url =>
    simp only [applyCall, addSubscriber]
    split_ifs with h1 h2
    · exact h
    · exact h
    · intro s hs
      simp only [List.mem_append, List.mem_singleton] at hs
      rcases hs with hs | hs
      · exact h s hs
      · subst hs
        simp only [true_and, Bool.not_eq_true, Bool.decide_eq_false, Bool.not_not_eq,
          List.any_eq_true, decide_eq_true_eq, not_not] at h2
        simpa using h2
  | unsubscribe execFails id =>
    simp only [applyCall, removeSubscriber]
    split_ifs
    · exact h
    · intro s hs
      exact h s (List.mem_filter.1 hs).1

/-- With foreign keys enforced, every state reached from the fresh system by
catalog calls has a queue row for every subscriber row. -/
theorem subscribersHaveQueue_of_foreignKeys (dir : Str) (calls : List CatalogCall) :
    (runCalls true dir World.empty calls).cat.subscribersHaveQueue := by
  have key : ∀ (w : World), w.cat.subscribersHaveQueue →
      (runCalls true dir w calls).cat.subscribersHaveQueue := by
    induction calls with
    | nil => intro w h; exact h
    | cons c rest ih =>
      intro w h
      exact ih _ (applyCall_subscribersHaveQueue dir w c h)
  exact key _ (by intro s hs; cases hs)

/-! ## Fan-out -/

theorem posts_deliver (respond : Nat → Option Nat) (message : Str) (j : Nat)
    (subs : List Subscriber) :
    posts (deliver respond message j subs) = subs.map (fun s => (s.webhookURL, message)) := by
  induction subs generalizing j with
  | nil => rfl
  | cons sub rest ih =>
    have hlog : posts (match respond j with
        | none => [Ev.log (.webhookError sub.webhookURL)]
        | some code =>
          if code < 200 ∨ code ≥ 300 then [Ev.log (.webhookStatus sub.webhookURL code)]
          else []) = [] := by
      cases respond j with
      | none => rfl
      | some code => by_cases hc : code < 200 ∨ code ≥ 300 <;> simp [hc, posts]
    have hsplit : ∀ a b : List Ev, posts (a ++ b) = posts a ++ posts b := by
      intro a b; simp [posts, List.filterMap_append]
    simp only [deliver, List.cons_append, List.map_cons]
    rw [show ∀ l : List Ev, posts (Ev.post sub.webhookURL message :: l)
        = (sub.webhookURL, message) :: posts l from fun l => by simp [posts],
      hsplit, hlog, ih]
    rfl

/-- C8: when the subscriber listing of the queue succeeds with the rows `subs`,
`notifySubscribers` returns `nil` and issues exactly one delivery attempt per
row, in row order, to that row's webhook URL with the message body as payload,
whatever the webhooks answer. -/
theorem notifySubscribers_attempts (listFails : Bool) (respond : Nat → Option Nat)
    (cat : Catalog) (queueID : Int) (message : Str) (subs : List Subscriber)
    (h : listSubscribers listFails cat queueID = .ok subs) :
    (notifySubscribers listFails respond cat queueID message).1 = .ok ∧
    posts (notifySubscribers listFails respond cat queueID message).2
      = subs.map (fun s => (s.webhookURL, message)) ∧
    (posts (notifySubscribers listFails respond cat queueID message).2).length = subs.length := by
  have hp : posts (notifySubscribers listFails respond cat queueID message).2
      = subs.map (fun s => (s.webhookURL, message)) := by
    simp only [notifySubscribers, h]
    rw [show ∀ l : List Ev, posts (Ev.notify queueID message :: l) = posts l from
      fun l => by simp [posts]]
    exact posts_deliver respond message 0 subs
  refine ⟨by simp [notifySubscribers, h], hp, by rw [hp, List.length_map]⟩

/-- C8, for two subscribers of queue 1 whose webhooks fail in different ways. -/
theorem notifySubscribers_attempts_witness :
    listSubscribers false ⟨[sampleQueue], [⟨1, 1, ['a']⟩, ⟨2, 1, ['b']⟩, ⟨3, 2, ['c']⟩], 1, 3⟩ 1
      = .ok [⟨1, 1, ['a']⟩, ⟨2, 1, ['b']⟩] ∧
    posts (notifySubscribers false (fun j => if j = 0 then none else some 500)
        ⟨[sampleQueue], [⟨1, 1, ['a']⟩, ⟨2, 1, ['b']⟩, ⟨3, 2, ['c']⟩], 1, 3⟩ 1 ['h', 'i']).2
      = [(['a'], ['h', 'i']), (['b'], ['h', 'i'])] :=
  ⟨rfl, (notifySubscribers_attempts false (fun j => if j = 0 then none else some 500)
    ⟨[sampleQueue], [⟨1, 1, ['a']⟩, ⟨2, 1, ['b']⟩, ⟨3, 2, ['c']⟩], 1, 3⟩ 1 ['h', 'i']
    [⟨1, 1, ['a']⟩, ⟨2, 1, ['b']⟩] rfl).2.1⟩

/-! ## The store: receive and delete -/

theorem write_same (fs : Fs) (path : Str) (st : Store) : (fs.write path st) path = some st := by
  simp [Fs.write]

theorem write_other (fs : Fs) (path : Str) (st : Store) {p : Str} (h : p ≠ path) :
    (fs.write path st) p = fs p := by
  simp [Fs.write, h]

theorem leaseFirst_spec (name : Str) (now lease : Nat) (l : List Message) {m : Message}
    {l1 : List Message} (h : leaseFirst name now lease l = some (m, l1)) :
    m.queue = name ∧ l1.length = l.length ∧
      l1.any (fun x => decide (x.queue = name ∧ x.id = m.id)) = true := by
  induction l generalizing l1 with
  | nil => simp [leaseFirst] at h
  | cons a rest ih =>
    by_cases hv : a.visible name now = true
    · simp only [leaseFirst, hv, if_true, Option.some.injEq, Prod.mk.injEq] at h
      obtain ⟨rfl, rfl⟩ := h
      have hq : a.queue = name := by
        simp only [Message.visible, decide_eq_true_eq] at hv; exact hv.1
      simp [hq]
    · cases hr : leaseFirst name now lease rest with
      | none => simp [leaseFirst, hv, hr] at h
      | some pr =>
        obtain ⟨r, rest1⟩ := pr
        simp only [leaseFirst, hv, hr, Option.some.injEq, Prod.mk.injEq] at h
        obtain ⟨rfl, rfl⟩ := h
        obtain ⟨h1, h2, h3⟩ := ih hr
        refine ⟨h1, by simp [h2], ?_⟩
        simp only [List.any_cons, Bool.or_eq_true]
        exact Or.inr h3

/-- Receive and delete of the first message of a store whose messages are all
visible: the store keeps the other messages and the rest of the file system
is untouched. -/
theorem receive_delete_head (fs : Fs) (path name : Str) (now lease nid : Nat) (m : Message)
    (rest : List Message) (hfs : fs path = some ⟨m :: rest, nid⟩)
    (hv : m.visible name now = true) (hnd : ((m :: rest).map (fun x => x.id)).Nodup) :
    ∃ fs1 fs2, storeReceive false now lease fs path name = .ok (m, fs1) ∧
      storeDelete false fs1 path name m.id = .ok fs2 ∧
      fs2 path = some ⟨rest, nid⟩ ∧ ∀ p, p ≠ path → fs2 p = fs p := by
  have hq : m.queue = name := by
    simp only [Message.visible, decide_eq_true_eq] at hv; exact hv.1
  refine ⟨fs.write path ⟨{ m with timeout := now + lease } :: rest, nid⟩,
    (fs.write path ⟨{ m with timeout := now + lease } :: rest, nid⟩).write path ⟨rest, nid⟩,
    ?_, ?_, write_same _ _ _, ?_⟩
  · simp [storeReceive, hfs, leaseFirst, hv]
  · have hfil : rest.filter (fun x => decide (¬ (x.queue = name ∧ x.id = m.id))) = rest := by
      rw [List.filter_eq_self]
      intro x hx
      simp only [List.map_cons, List.nodup_cons, List.mem_map, not_exists, not_and] at hnd
      have : x.id ≠ m.id := fun e => hnd.1 x hx e
      simp [this]
    have hany : (({ m with timeout := now + lease } : Message) :: rest).any
        (fun x => decide (x.queue = name ∧ x.id = m.id)) = true := by simp [hq]
    have hfil2 : (({ m with timeout := now + lease } : Message) :: rest).filter
        (fun x => decide (¬ (x.queue = name ∧ x.id = m.id))) = rest := by
      rw [List.filter_cons_of_neg (by simp [hq])]
      exact hfil
    simp only [storeDelete, Bool.false_eq_true, if_false, write_same, hany, if_true, hfil2]
  · intro p hp
    rw [write_other _ _ _ hp, write_other _ _ _ hp]

/-! ## `emptyQueue` -/

theorem emptyLoop_drain (path name : Str) (env : LoopEnv)
    (hnf : ∀ j, (env.tick j).receiveFails = false ∧ (env.tick j).deleteFails = false) :
    ∀ (msgs : List Message) (fuel k : Nat) (fs : Fs) (nid : Nat),
      fs path = some ⟨msgs, nid⟩ →
      (∀ j, ∀ m ∈ msgs, m.visible name (env.tick j).now = true) →
      (msgs.map (fun x => x.id)).Nodup → msgs.length < fuel →
      (emptyLoop path name env fuel k fs).1 = .ok ∧
      (emptyLoop path name env fuel k fs).2.1 path = some ⟨[], nid⟩ ∧
      (∀ p, p ≠ path → (emptyLoop path name env fuel k fs).2.1 p = fs p) ∧
      (emptyLoop path name env fuel k fs).2.2 = drainEvents path name msgs := by
  intro msgs
  induction msgs with
  | nil =>
    intro fuel k fs nid hfs _ _ hfuel
    obtain ⟨f, rfl⟩ : ∃ f, fuel = f + 1 := ⟨fuel - 1, by omega⟩
    have hr : storeReceive (env.tick k).receiveFails (env.tick k).now env.lease fs path name
        = .error .noRows := by
      simp [storeReceive, (hnf k).1, hfs, leaseFirst]
    simp only [emptyLoop, hr, if_true, drainEvents]
    exact ⟨trivial, hfs, fun _ _ => trivial, trivial⟩
  | cons m rest ih =>
    intro fuel k fs nid hfs hvis hnd hfuel
    obtain ⟨f, rfl⟩ : ∃ f, fuel = f + 1 := ⟨fuel - 1, by omega⟩
    obtain ⟨fs1, fs2, hr, hd, hfs2, hoth⟩ :=
      receive_delete_head fs path name (env.tick k).now env.lease nid m rest hfs
        (hvis k m (List.mem_cons_self _ _)) hnd
    have hnd2 : (rest.map (fun x => x.id)).Nodup := by
      simp only [List.map_cons, List.nodup_cons] at hnd; exact hnd.2
    obtain ⟨h1, h2, h3, h4⟩ := ih f (k + 1) fs2 nid hfs2
      (fun j x hx => hvis j x (List.mem_cons_of_mem _ hx)) hnd2
      (by simp only [List.length_cons] at hfuel; omega)
    simp only [emptyLoop, (hnf k).1, (hnf k).2, hr, hd, drainEvents]
    exact ⟨h1, h2, fun p hp => (h3 p hp).trans (hoth p hp), by rw [h4]⟩

theorem deletions_drainEvents (path name : Str) (msgs : List Message) :
    deletions (drainEvents path name msgs) = msgs.map (fun m => m.id) := by
  induction msgs with
  | nil => rfl
  | cons m rest ih =>
    simp only [drainEvents, List.map_cons]
    rw [show ∀ l : List Ev, deletions (Ev.receive path name :: Ev.delete path name m.id :: l)
      = m.id :: deletions l from fun l => by simp [deletions], ih]

theorem receives_drainEvents (path name : Str) (msgs : List Message) :
    receives (drainEvents path name msgs) = msgs.length + 1 := by
  induction msgs with
  | nil => rfl
  | cons m rest ih =>
    have : receives (drainEvents path name (m :: rest))
        = receives (drainEvents path name rest) + 1 := by
      simp [drainEvents, receives, Ev.isReceive]
    rw [this, ih, List.length_cons]

/-- C5: on a store file whose messages `msgs` are all visible messages of the
queue (with distinct identifiers), with no storage fault and more fuel than
messages, `emptyQueue` returns `nil`, leaves the store with no message and the
other files untouched, and issues for each message in order one `Receive` and
one `Delete` of it, then one last `Receive`: `n` deletes and `n + 1` receives. -/
theorem emptyQueue_drains (fuel : Nat) (dir : Str) (env : LoopEnv) (fs : Fs)
    (id workspaceID : Int) (msgs : List Message) (nid : Nat)
    (hfs : fs (queuePath dir workspaceID id) = some ⟨msgs, nid⟩)
    (hvis : ∀ j, ∀ m ∈ msgs, m.visible (queueName id) (env.tick j).now = true)
    (hnd : (msgs.map (fun x => x.id)).Nodup)
    (hopen : env.openFails = false)
    (hnf : ∀ j, (env.tick j).receiveFails = false ∧ (env.tick j).deleteFails = false)
    (hfuel : msgs.length < fuel) :
    (emptyQueue fuel dir env fs id workspaceID).1 = .ok ∧
    (emptyQueue fuel dir env fs id workspaceID).2.1 (queuePath dir workspaceID id)
      = some ⟨[], nid⟩ ∧
    (∀ p, p ≠ queuePath dir workspaceID id →
      (emptyQueue fuel dir env fs id workspaceID).2.1 p = fs p) ∧
    (emptyQueue fuel dir env fs id workspaceID).2.2
      = drainEvents (queuePath dir workspaceID id) (queueName id) msgs ∧
    deletions (emptyQueue fuel dir env fs id workspaceID).2.2 = msgs.map (fun m => m.id) ∧
    receives (emptyQueue fuel dir env fs id workspaceID).2.2 = msgs.length + 1 := by
  have h := emptyLoop_drain (queuePath dir workspaceID id) (queueName id) env hnf msgs fuel 0 fs
    nid hfs hvis hnd hfuel
  have he : emptyQueue fuel dir env fs id workspaceID
      = emptyLoop (queuePath dir workspaceID id) (queueName id) env fuel 0 fs := by
    simp [emptyQueue, hopen, queuePath, queueName]
  rw [he]
  refine ⟨h.1, h.2.1, h.2.2.1, h.2.2.2, ?_, ?_⟩
  · rw [h.2.2.2, deletions_drainEvents]
  · rw [h.2.2.2, receives_drainEvents]

/-- C5, on the store of queue 1 holding the two example messages. -/
theorem emptyQueue_drains_witness :
    sampleFs (queuePath sampleDir 1 1) = some ⟨sampleMessages, 2⟩ ∧
    (emptyQueue 3 sampleDir (LoopEnv.calm 0 5) sampleFs 1 1).1 = .ok ∧
    (emptyQueue 3 sampleDir (LoopEnv.calm 0 5) sampleFs 1 1).2.1 (queuePath sampleDir 1 1)
      = some ⟨[], 2⟩ ∧
    deletions (emptyQueue 3 sampleDir (LoopEnv.calm 0 5) sampleFs 1 1).2.2 = [0, 1] :=
  have h := emptyQueue_drains 3 sampleDir (LoopEnv.calm 0 5) sampleFs 1 1 sampleMessages 2
    (write_same _ _ _)
    (fun _ => (by decide : ∀ m ∈ sampleMessages, Message.visible (queueName 1) 0 m = true))
    (by decide) rfl (fun _ => ⟨rfl, rfl⟩) (by decide)
  ⟨write_same _ _ _, h.1, h.2.1, h.2.2.2.2.1⟩

/-! ## `processQueueMessages` -/

theorem notifications_noise {l : List Ev} (h : ∀ e ∈ l, Ev.isNoise e = true) :
    notifications l = [] := by
  rw [notifications, List.filterMap_eq_nil_iff]
  intro e he
  have := h e he
  cases e <;> simp_all [Ev.isNoise]

theorem deletions_noise {l : List Ev} (h : ∀ e ∈ l, Ev.isNoise e = true) :
    deletions l = [] := by
  rw [deletions, List.filterMap_eq_nil_iff]
  intro e he
  have := h e he
  cases e <;> simp_all [Ev.isNoise]

theorem invocations_noise {l : List Ev} (h : ∀ e ∈ l, Ev.isNoise e = true) :
    invocations l = [] := by
  rw [invocations, List.filterMap_eq_nil_iff]
  intro e he
  have := h e he
  cases e <;> simp_all [Ev.isNoise]

theorem receives_noise {l : List Ev} (h : ∀ e ∈ l, Ev.isNoise e = true) : receives l = 0 := by
  rw [receives, List.countP_eq_zero]
  intro e he
  have := h e he
  cases e <;> simp_all [Ev.isNoise, Ev.isReceive]

theorem deliver_noise (respond : Nat → Option Nat) (message : Str) (j : Nat)
    (subs : List Subscriber) : ∀ e ∈ deliver respond message j subs, Ev.isNoise e = true := by
  induction subs generalizing j with
  | nil => intro e he; cases he
  | cons sub rest ih =>
    intro e he
    simp only [deliver, List.cons_append, List.mem_cons, List.mem_append] at he
    rcases he with rfl | he | he
    · rfl
    · cases hr : respond j with
      | none => rw [hr] at he; simp only [List.mem_singleton] at he; subst he; rfl
      | some code =>
        rw [hr] at he
        by_cases hc : code < 200 ∨ code ≥ 300
        · simp only [hc, if_true, List.mem_singleton] at he; subst he; rfl
        · simp only [hc, if_false] at he; cases he
    · exact ih _ e he

theorem notifySubscribers_events (listFails : Bool) (respond : Nat → Option Nat) (cat : Catalog)
    (queueID : Int) (message : Str) :
    ∃ noise, (notifySubscribers listFails respond cat queueID message).2
        = .notify queueID message :: noise ∧ ∀ e ∈ noise, Ev.isNoise e = true := by
  unfold notifySubscribers
  cases listSubscribers listFails cat queueID with
  | error e => exact ⟨[], rfl, fun e he => by cases he⟩
  | ok subs => exact ⟨_, rfl, deliver_noise respond message 0 subs⟩

theorem notifications_append (a b : List Ev) :
    notifications (a ++ b) = notifications a ++ notifications b := by
  simp [notifications, List.filterMap_append]

theorem deletions_append (a b : List Ev) : deletions (a ++ b) = deletions a ++ deletions b := by
  simp [deletions, List.filterMap_append]

theorem invocations_append (a b : List Ev) :
    invocations (a ++ b) = invocations a ++ invocations b := by
  simp [invocations, List.filterMap_append]

theorem receives_append (a b : List Ev) : receives (a ++ b) = receives a + receives b := by
  simp [receives, List.countP_append]

/-- The events of one turn of `processQueueMessages` that receives a message:
one `Receive`, one `notifySubscribers` call, one `Delete`, around delivery
attempts and log lines. -/
theorem turn_events (path name : Str) (queueID : Int) (body : Str) (msgID : Nat)
    (noise nlog dlog tr : List Ev) (h1 : ∀ e ∈ noise, Ev.isNoise e = true)
    (h2 : ∀ e ∈ nlog, Ev.isNoise e = true) (h3 : ∀ e ∈ dlog, Ev.isNoise e = true) :
    notifications (Ev.receive path name ::
        ((Ev.notify queueID body :: noise) ++ nlog ++ (Ev.delete path name msgID :: dlog) ++ tr))
      = (queueID, body) :: notifications tr ∧
    deletions (Ev.receive path name ::
        ((Ev.notify queueID body :: noise) ++ nlog ++ (Ev.delete path name msgID :: dlog) ++ tr))
      = msgID :: deletions tr ∧
    receives (Ev.receive path name ::
        ((Ev.notify queueID body :: noise) ++ nlog ++ (Ev.delete path name msgID :: dlog) ++ tr))
      = receives tr + 1 ∧
    invocations (Ev.receive path name ::
        ((Ev.notify queueID body :: noise) ++ nlog ++ (Ev.delete path name msgID :: dlog) ++ tr))
      = invocations tr := by
  have c1 : ∀ (e : Ev) (l : List Ev), e :: l = [e] ++ l := fun _ _ => rfl
  refine ⟨?_, ?_, ?_, ?_⟩
  · rw [c1 (Ev.receive path name), c1 (Ev.notify queueID body), c1 (Ev.delete path name msgID)]
    simp only [notifications_append, notifications_noise h1, notifications_noise h2,
      notifications_noise h3]
    simp [notifications]
  · rw [c1 (Ev.receive path name), c1 (Ev.notify queueID body), c1 (Ev.delete path name msgID)]
    simp only [deletions_append, deletions_noise h1, deletions_noise h2, deletions_noise h3]
    simp [deletions]
  · rw [c1 (Ev.receive path name), c1 (Ev.notify queueID body), c1 (Ev.delete path name msgID)]
    simp only [receives_append, receives_noise h1, receives_noise h2, receives_noise h3]
    simp [receives, Ev.isReceive]
    omega
  · rw [c1 (Ev.receive path name), c1 (Ev.notify queueID body), c1 (Ev.delete path name msgID)]
    simp only [invocations_append, invocations_noise h1, invocations_noise h2,
      invocations_noise h3]
    simp [invocations]

theorem nlog_noise (r : Res) (queueID : Int) :
    ∀ e ∈ (if r = .ok then ([] : List Ev) else [.log (.notifyError queueID)]),
      Ev.isNoise e = true := by
  intro e he
  by_cases h : r = .ok
  · simp [h] at he
  · simp only [h, if_false, List.mem_singleton] at he; subst he; rfl

theorem processLoop_drain (path name : Str) (queueID : Int) (env : LoopEnv) (cat : Catalog)
    (hnf : ∀ j, (env.tick j).receiveFails = false ∧ (env.tick j).deleteFails = false) :
    ∀ (msgs : List Message) (fuel k : Nat) (fs : Fs) (nid : Nat),
      fs path = some ⟨msgs, nid⟩ →
      (∀ j, ∀ m ∈ msgs, m.visible name (env.tick j).now = true) →
      (msgs.map (fun x => x.id)).Nodup → msgs.length < fuel →
      (processLoop path name queueID env cat fuel k fs).1 = .ok ∧
      (processLoop path name queueID env cat fuel k fs).2.1 path = some ⟨[], nid⟩ ∧
      (∀ p, p ≠ path → (processLoop path name queueID env cat fuel k fs).2.1 p = fs p) ∧
      notifications (processLoop path name queueID env cat fuel k fs).2.2
        = msgs.map (fun m => (queueID, m.body)) ∧
      deletions (processLoop path name queueID env cat fuel k fs).2.2
        = msgs.map (fun m => m.id) ∧
      receives (processLoop path name queueID env cat fuel k fs).2.2 = msgs.length + 1 := by
  intro msgs
  induction msgs with
  | nil =>
    intro fuel k fs nid hfs _ _ hfuel
    obtain ⟨f, rfl⟩ : ∃ f, fuel = f + 1 := ⟨fuel - 1, by omega⟩
    have hr : storeReceive (env.tick k).receiveFails (env.tick k).now env.lease fs path name
        = .error .noRows := by
      simp [storeReceive, (hnf k).1, hfs, leaseFirst]
    simp only [processLoop, hr, if_true]
    exact ⟨trivial, hfs, fun _ _ => trivial, rfl, rfl, rfl⟩
  | cons m rest ih =>
    intro fuel k fs nid hfs hvis hnd hfuel
    obtain ⟨f, rfl⟩ : ∃ f, fuel = f + 1 := ⟨fuel - 1, by omega⟩
    obtain ⟨fs1, fs2, hr, hd, hfs2, hoth⟩ :=
      receive_delete_head fs path name (env.tick k).now env.lease nid m rest hfs
        (hvis k m (List.mem_cons_self _ _)) hnd
    have hnd2 : (rest.map (fun x => x.id)).Nodup := by
      simp only [List.map_cons, List.nodup_cons] at hnd; exact hnd.2
    obtain ⟨h1, h2, h3, h4, h5, h6⟩ := ih f (k + 1) fs2 nid hfs2
      (fun j x hx => hvis j x (List.mem_cons_of_mem _ hx)) hnd2
      (by simp only [List.length_cons] at hfuel; omega)
    obtain ⟨noise, hn, hnoise⟩ :=
      notifySubscribers_events (env.tick k).listFails (env.tick k).respond cat queueID m.body
    have ht := turn_events path name queueID m.body m.id noise
      (if (notifySubscribers (env.tick k).listFails (env.tick k).respond cat queueID m.body).1
          = .ok then [] else [.log (.notifyError queueID)]) []
      (processLoop path name queueID env cat f (k + 1) fs2).2.2 hnoise (nlog_noise _ _)
      (fun e he => by cases he)
    simp only [processLoop, (hnf k).1, (hnf k).2, hr, hd, hn, List.map_cons, List.length_cons]
    refine ⟨h1, h2, fun p hp => (h3 p hp).trans (hoth p hp), ?_, ?_, ?_⟩
    · rw [ht.1, h4]
    · rw [ht.2.1, h5]
    · rw [ht.2.2.1, h6]

/-- C4: on a store file whose messages `msgs` are all visible messages of the
queue (with distinct identifiers), with `Receive` and `Delete` never failing
and more fuel than messages, `processQueueMessages` returns `nil`, leaves the
store with no message, calls `notifySubscribers` once per message with its
body in insertion order, and deletes every message in that order, whether the
subscriber listing inside `notifySubscribers` failed or not. -/
theorem processQueueMessages_drains (fuel : Nat) (dir : Str) (env : LoopEnv) (cat : Catalog)
    (fs : Fs) (queueID workspaceID : Int) (msgs : List Message) (nid : Nat)
    (hfs : fs (queuePath dir workspaceID queueID) = some ⟨msgs, nid⟩)
    (hvis : ∀ j, ∀ m ∈ msgs, m.visible (queueName queueID) (env.tick j).now = true)
    (hnd : (msgs.map (fun x => x.id)).Nodup)
    (hopen : env.openFails = false)
    (hnf : ∀ j, (env.tick j).receiveFails = false ∧ (env.tick j).deleteFails = false)
    (hfuel : msgs.length < fuel) :
    (processQueueMessages fuel dir env cat fs queueID workspaceID).1 = .ok ∧
    (processQueueMessages fuel dir env cat fs queueID workspaceID).2.1
      (queuePath dir workspaceID queueID) = some ⟨[], nid⟩ ∧
    (∀ p, p ≠ queuePath dir workspaceID queueID →
      (processQueueMessages fuel dir env cat fs queueID workspaceID).2.1 p = fs p) ∧
    notifications (processQueueMessages fuel dir env cat fs queueID workspaceID).2.2
      = msgs.map (fun m => (queueID, m.body)) ∧
    deletions (processQueueMessages fuel dir env cat fs queueID workspaceID).2.2
      = msgs.map (fun m => m.id) ∧
    receives (processQueueMessages fuel dir env cat fs queueID workspaceID).2.2
      = msgs.length + 1 := by
  have he : processQueueMessages fuel dir env cat fs queueID workspaceID
      = processLoop (queuePath dir workspaceID queueID) (queueName queueID) queueID env cat
          fuel 0 fs := by
    simp [processQueueMessages, hopen, queuePath, queueName]
  rw [he]
  exact processLoop_drain _ _ queueID env cat hnf msgs fuel 0 fs nid hfs hvis hnd hfuel

/-- C4, on the store of queue 1 holding the two example messages, with a
subscriber listing that fails for the first message. -/
theorem processQueueMessages_drains_witness :
    sampleFs (queuePath sampleDir 1 1) = some ⟨sampleMessages, 2⟩ ∧
    (processQueueMessages 3 sampleDir
      ⟨false, 5, fun k => ⟨0, false, decide (k = 0), false, fun _ => none⟩⟩
      sampleWorld.cat sampleFs 1 1).1 = .ok ∧
    notifications (processQueueMessages 3 sampleDir
      ⟨false, 5, fun k => ⟨0, false, decide (k = 0), false, fun _ => none⟩⟩
      sampleWorld.cat sampleFs 1 1).2.2 = [(1, ['a']), (1, ['b'])] ∧
    deletions (processQueueMessages 3 sampleDir
      ⟨false, 5, fun k => ⟨0, false, decide (k = 0), false, fun _ => none⟩⟩
      sampleWorld.cat sampleFs 1 1).2.2 = [0, 1] :=
  have h := processQueueMessages_drains 3 sampleDir
    ⟨false, 5, fun k => ⟨0, false, decide (k = 0), false, fun _ => none⟩⟩
    sampleWorld.cat sampleFs 1 1 sampleMessages 2 (write_same _ _ _)
    (fun _ => (by decide : ∀ m ∈ sampleMessages, Message.visible (queueName 1) 0 m = true))
    (by decide) rfl (fun _ => ⟨rfl, rfl⟩) (by decide)
  ⟨write_same _ _ _, h.1, h.2.2.2.1, h.2.2.2.2.1⟩

/-- C9 (as stated, refuted): on the store of queue 1 with the two example
messages, the `Delete` of the first message fails, and the call goes on: it
receives the second message, notifies and deletes it, and receives once more
before it returns `nil`. -/
theorem processQueueMessages_goes_on_after_delete_failure :
    (LoopEnv.firstDeleteFails.tick 0).deleteFails = true ∧
    processQueueMessages 4 sampleDir LoopEnv.firstDeleteFails sampleWorld.cat sampleFs 1 1
      = (.ok, (processQueueMessages 4 sampleDir LoopEnv.firstDeleteFails sampleWorld.cat
          sampleFs 1 1).2.1,
        [.receive (queuePath sampleDir 1 1) (queueName 1), .notify 1 ['a'],
          .delete (queuePath sampleDir 1 1) (queueName 1) 0, .log (.deleteError 0 1),
          .receive (queuePath sampleDir 1 1) (queueName 1), .notify 1 ['b'],
          .delete (queuePath sampleDir 1 1) (queueName 1) 1,
          .receive (queuePath sampleDir 1 1) (queueName 1)]) := by
  refine ⟨rfl, ?_⟩
  have h1 : (processQueueMessages 4 sampleDir LoopEnv.firstDeleteFails sampleWorld.cat
      sampleFs 1 1).1 = .ok := by decide
  have h2 : (processQueueMessages 4 sampleDir LoopEnv.firstDeleteFails sampleWorld.cat
      sampleFs 1 1).2.2 =
        [.receive (queuePath sampleDir 1 1) (queueName 1), .notify 1 ['a'],
          .delete (queuePath sampleDir 1 1) (queueName 1) 0, .log (.deleteError 0 1),
          .receive (queuePath sampleDir 1 1) (queueName 1), .notify 1 ['b'],
          .delete (queuePath sampleDir 1 1) (queueName 1) 1,
          .receive (queuePath sampleDir 1 1) (queueName 1)] := by decide
  rw [← h1, ← h2]

theorem processLoop_receive_fault (path name : Str) (queueID : Int) (env : LoopEnv)
    (cat : Catalog) (k : Nat) (hk : (env.tick k).receiveFails = true) :
    ∀ (fuel k0 : Nat) (fs : Fs), k0 ≤ k →
      receives (processLoop path name queueID env cat fuel k0 fs).2.2 ≤ k - k0 ∨
      ((processLoop path name queueID env cat fuel k0 fs).1 = .err .io ∧
        ∃ pre, (processLoop path name queueID env cat fuel k0 fs).2.2
            = pre ++ [.receive path name] ∧ receives pre = k - k0) := by
  intro fuel
  induction fuel with
  | zero => intro k0 fs _; left; simp [processLoop, receives]
  | succ f ih =>
    intro k0 fs hk0
    rcases Nat.eq_or_lt_of_le hk0 with rfl | hlt
    · right
      have hr : storeReceive (env.tick k0).receiveFails (env.tick k0).now env.lease fs path name
          = .error .io := by simp [storeReceive, hk]
      simp only [processLoop, hr]
      exact ⟨rfl, [], rfl, by simp [receives]⟩
    · have hstep : ∀ (fs2 : Fs) (body : Str) (msgID : Nat) (noise nlog dlog : List Ev),
          (∀ e ∈ noise, Ev.isNoise e = true) → (∀ e ∈ nlog, Ev.isNoise e = true) →
          (∀ e ∈ dlog, Ev.isNoise e = true) →
          receives (Ev.receive path name :: ((Ev.notify queueID body :: noise) ++ nlog ++
              (Ev.delete path name msgID :: dlog) ++
              (processLoop path name queueID env cat f (k0 + 1) fs2).2.2)) ≤ k - k0 ∨
          ((processLoop path name queueID env cat f (k0 + 1) fs2).1 = .err .io ∧
            ∃ pre, Ev.receive path name :: ((Ev.notify queueID body :: noise) ++ nlog ++
              (Ev.delete path name msgID :: dlog) ++
              (processLoop path name queueID env cat f (k0 + 1) fs2).2.2)
                = pre ++ [.receive path name] ∧ receives pre = k - k0) := by
        intro fs2 body msgID noise nlog dlog h1 h2 h3
        rcases ih (k0 + 1) fs2 hlt with h | ⟨he, pre, hpre, hcount⟩
        · left
          rw [(turn_events path name queueID body msgID noise nlog dlog _ h1 h2 h3).2.2.1]
          omega
        · right
          refine ⟨he, Ev.receive path name :: ((Ev.notify queueID body :: noise) ++ nlog ++
            (Ev.delete path name msgID :: dlog) ++ pre), ?_, ?_⟩
          · rw [hpre]; simp [List.append_assoc]
          · rw [(turn_events path name queueID body msgID noise nlog dlog pre h1 h2 h3).2.2.1]
            omega
      cases hr : storeReceive (env.tick k0).receiveFails (env.tick k0).now env.lease fs path name
        with
      | error e =>
        left
        by_cases he : e = .noRows
        · simp only [processLoop, hr, he, if_true]
          simp [receives, Ev.isReceive]; omega
        · simp only [processLoop, hr, he, if_false]
          simp [receives, Ev.isReceive]; omega
      | ok pr =>
        obtain ⟨msg, fs1⟩ := pr
        obtain ⟨noise, hn, hnoise⟩ := notifySubscribers_events (env.tick k0).listFails
          (env.tick k0).respond cat queueID msg.body
        cases hd : storeDelete (env.tick k0).deleteFails fs1 path name msg.id with
        | error e =>
          simp only [processLoop, hr, hd, hn]
          exact hstep fs1 msg.body msg.id noise _ [.log (.deleteError msg.id queueID)] hnoise
            (nlog_noise _ _) (fun e he => by
              simp only [List.mem_singleton] at he; subst he; rfl)
        | ok fs2 =>
          simp only [processLoop, hr, hd, hn]
          exact hstep fs2 msg.body msg.id noise _ [] hnoise (nlog_noise _ _)
            (fun e he => by cases he)

theorem processLoop_error_is_receive (path name : Str) (queueID : Int) (env : LoopEnv)
    (cat : Catalog) :
    ∀ (fuel k0 : Nat) (fs : Fs) (e : Err),
      (processLoop path name queueID env cat fuel k0 fs).1 = .err e →
      ∃ pre, (processLoop path name queueID env cat fuel k0 fs).2.2
        = pre ++ [.receive path name] := by
  intro fuel
  induction fuel with
  | zero => intro k0 fs e h; simp [processLoop] at h
  | succ f ih =>
    intro k0 fs e
    cases hr : storeReceive (env.tick k0).receiveFails (env.tick k0).now env.lease fs path name
      with
    | error e1 =>
      by_cases he : e1 = .noRows
      · simp [processLoop, hr, he]
      · simp only [processLoop, hr, he, if_false]
        intro _; exact ⟨[], rfl⟩
    | ok pr =>
      obtain ⟨msg, fs1⟩ := pr
      cases hd : storeDelete (env.tick k0).deleteFails fs1 path name msg.id with
      | error e2 =>
        simp only [processLoop, hr, hd]
        intro h
        obtain ⟨pre, hpre⟩ := ih (k0 + 1) fs1 e h
        rw [hpre]
        exact ⟨Ev.receive path name ::
          ((notifySubscribers (env.tick k0).listFails (env.tick k0).respond cat queueID
              msg.body).2 ++
            (if (notifySubscribers (env.tick k0).listFails (env.tick k0).respond cat queueID
              msg.body).1 = .ok then [] else [.log (.notifyError queueID)]) ++
            [.delete path name msg.id, .log (.deleteError msg.id queueID)] ++ pre),
          by simp [List.append_assoc]⟩
      | ok fs2 =>
        simp only [processLoop, hr, hd]
        intro h
        obtain ⟨pre, hpre⟩ := ih (k0 + 1) fs2 e h
        rw [hpre]
        exact ⟨Ev.receive path name ::
          ((notifySubscribers (env.tick k0).listFails (env.tick k0).respond cat queueID
              msg.body).2 ++
            (if (notifySubscribers (env.tick k0).listFails (env.tick k0).respond cat queueID
              msg.body).1 = .ok then [] else [.log (.notifyError queueID)]) ++
            [.delete path name msg.id] ++ pre),
          by simp [List.append_assoc]⟩

/-- C9 (amended): in `processQueueMessages` a `Receive` that fails with anything
other than the empty result ends the call at once: when the `Receive` of turn
`k` fails, either the loop ended before that turn, or the call returns the
storage error and that `Receive`, the `k + 1`-th, is its last operation.  A
failing `Delete` never ends the call: whenever the call returns an error, it
issued no operation at all (`sql.Open` failed) or its last operation is the
`Receive` that failed. -/
theorem processQueueMessages_receive_failure (fuel : Nat) (dir : Str) (env : LoopEnv)
    (cat : Catalog) (fs : Fs) (queueID workspaceID : Int) :
    (∀ k, (env.tick k).receiveFails = true →
      receives (processQueueMessages fuel dir env cat fs queueID workspaceID).2.2 ≤ k ∨
      ((processQueueMessages fuel dir env cat fs queueID workspaceID).1 = .err .io ∧
        ∃ pre, (processQueueMessages fuel dir env cat fs queueID workspaceID).2.2
            = pre ++ [.receive (queuePath dir workspaceID queueID) (queueName queueID)] ∧
          receives pre = k)) ∧
    (∀ e, (processQueueMessages fuel dir env cat fs queueID workspaceID).1 = .err e →
      (processQueueMessages fuel dir env cat fs queueID workspaceID).2.2 = [] ∨
      ∃ pre, (processQueueMessages fuel dir env cat fs queueID workspaceID).2.2
        = pre ++ [.receive (queuePath dir workspaceID queueID) (queueName queueID)]) := by
  by_cases hopen : env.openFails = true
  · have he : processQueueMessages fuel dir env cat fs queueID workspaceID = (.err .io, fs, []) := by
      simp [processQueueMessages, hopen]
    rw [he]
    exact ⟨fun k _ => Or.inl (by simp [receives]), fun _ _ => Or.inl rfl⟩
  · have he : processQueueMessages fuel dir env cat fs queueID workspaceID
        = processLoop (queuePath dir workspaceID queueID) (queueName queueID) queueID env cat
            fuel 0 fs := by
      simp [processQueueMessages, hopen, queuePath, queueName]
    rw [he]
    refine ⟨fun k hk => ?_, fun e h => Or.inr ?_⟩
    · simpa using processLoop_receive_fault _ _ queueID env cat k hk fuel 0 fs (Nat.zero_le _)
    · exact processLoop_error_is_receive _ _ queueID env cat fuel 0 fs e h

/-! ## Store addressing: `%d` -/

theorem decDigits_value : ∀ (fuel n : Nat), n < fuel → digitsValue (decDigits fuel n) = n := by
  intro fuel
  induction fuel with
  | zero => intro n h; omega
  | succ f ih =>
    intro n h
    by_cases hn : n < 10
    · simp [decDigits, hn, digitsValue]
    · simp only [decDigits, hn, if_false, digitsValue]
      rw [ih (n / 10) (by omega)]
      omega

theorem decDigits_lt : ∀ (fuel n : Nat), ∀ d ∈ decDigits fuel n, d < 10 := by
  intro fuel
  induction fuel with
  | zero => intro n d h; simp [decDigits] at h
  | succ f ih =>
    intro n d h
    by_cases hn : n < 10
    · simp only [decDigits, hn, if_true, List.mem_singleton] at h; omega
    · simp only [decDigits, hn, if_false, List.mem_cons] at h
      rcases h with h | h
      · omega
      · exact ih _ d h

theorem decDigits_ne_nil (fuel n : Nat) : decDigits (fuel + 1) n ≠ [] := by
  by_cases hn : n < 10 <;> simp [decDigits, hn]

theorem digitChar_inj {a b : Nat} (ha : a < 10) (hb : b < 10) (h : digitChar a = digitChar b) :
    a = b := by
  interval_cases a <;> interval_cases b <;> first | rfl | (exact absurd h (by decide))

theorem digitChar_plain (d : Nat) :
    digitChar d ≠ '-' ∧ digitChar d ≠ '/' ∧ digitChar d ≠ '.' := by
  unfold digitChar
  split <;> decide

theorem map_digitChar_inj : ∀ (l₁ l₂ : List Nat), (∀ d ∈ l₁, d < 10) → (∀ d ∈ l₂, d < 10) →
    l₁.map digitChar = l₂.map digitChar → l₁ = l₂ := by
  intro l₁
  induction l₁ with
  | nil => intro l₂ _ _ h; cases l₂ with
    | nil => rfl
    | cons b t => simp at h
  | cons a t ih =>
    intro l₂ h1 h2 h
    cases l₂ with
    | nil => simp at h
    | cons b t2 =>
      simp only [List.map_cons, List.cons.injEq] at h
      have hab := digitChar_inj (h1 a (List.mem_cons_self _ _)) (h2 b (List.mem_cons_self _ _)) h.1
      have := ih t2 (fun d hd => h1 d (List.mem_cons_of_mem _ hd))
        (fun d hd => h2 d (List.mem_cons_of_mem _ hd)) h.2
      rw [hab, this]

theorem fmtNat_inj {n m : Nat} (h : fmtNat n = fmtNat m) : n = m := by
  unfold fmtNat at h
  have h1 := map_digitChar_inj _ _
    (fun d hd => decDigits_lt (n + 1) n d (List.mem_reverse.1 hd))
    (fun d hd => decDigits_lt (m + 1) m d (List.mem_reverse.1 hd)) h
  have h2 := List.reverse_injective h1
  have := congrArg digitsValue h2
  rwa [decDigits_value _ _ (Nat.lt_succ_self n), decDigits_value _ _ (Nat.lt_succ_self m)] at this

theorem fmtNat_plain (n : Nat) : ∀ c ∈ fmtNat n, c ≠ '-' ∧ c ≠ '/' ∧ c ≠ '.' := by
  intro c hc
  unfold fmtNat at hc
  obtain ⟨d, -, rfl⟩ := List.mem_map.1 hc
  exact digitChar_plain d

theorem fmtNat_ne_nil (n : Nat) : fmtNat n ≠ [] := by
  unfold fmtNat
  simpa using decDigits_ne_nil n n

theorem fmtInt_plain (i : Int) : ∀ c ∈ fmtInt i, c ≠ '/' ∧ c ≠ '.' := by
  intro c hc
  unfold fmtInt at hc
  split_ifs at hc
  · rcases List.mem_cons.1 hc with rfl | h
    · decide
    · exact (fmtNat_plain _ c h).2
  · exact (fmtNat_plain _ c hc).2

theorem fmtInt_ne_nil (i : Int) : fmtInt i ≠ [] := by
  unfold fmtInt
  split_ifs
  · simp
  · exact fmtNat_ne_nil _

theorem fmtInt_inj {i j : Int} (h : fmtInt i = fmtInt j) : i = j := by
  unfold fmtInt at h
  have hhead : ∀ n, ∀ t, fmtNat n ≠ '-' :: t := by
    intro n t e
    have := (fmtNat_plain n '-' (by rw [e]; exact List.mem_cons_self _ _)).1
    exact this rfl
  split_ifs at h with hi hj hj
  · have := fmtNat_inj (List.cons.inj h).2
    omega
  · exact absurd h.symm (hhead _ _)
  · exact absurd h (hhead _ _)
  · have := fmtNat_inj h
    omega

/-! ## Store addressing: `filepath.Join` -/

theorem splitSlash_ne_nil (s : Str) : splitSlash s ≠ [] := by
  cases s with
  | nil => simp [splitSlash]
  | cons c cs =>
    by_cases hc : c = '/'
    · simp [splitSlash, hc]
    · cases h : splitSlash cs <;> simp [splitSlash, hc, h]

theorem splitSlash_noSlash : ∀ (s : Str), '/' ∉ s → splitSlash s = [s] := by
  intro s
  induction s with
  | nil => intro _; rfl
  | cons c cs ih =>
    intro h
    simp only [List.mem_cons, not_or] at h
    have hc : c ≠ '/' := fun e => h.1 e.symm
    simp [splitSlash, hc, ih h.2]

theorem splitSlash_append (a b : Str) :
    splitSlash (a ++ '/' :: b) = splitSlash a ++ splitSlash b := by
  induction a with
  | nil => simp [splitSlash]
  | cons c cs ih =>
    by_cases hc : c = '/'
    · simp [splitSlash, hc, ih]
    · cases h : splitSlash cs with
      | nil => exact absurd h (splitSlash_ne_nil cs)
      | cons x t =>
        have e : splitSlash (c :: (cs ++ '/' :: b))
            = match splitSlash (cs ++ '/' :: b) with
              | [] => [[c]]
              | h :: t => (c :: h) :: t := by
          simp only [splitSlash, hc, if_false]
        have e2 : splitSlash (c :: cs) = (c :: x) :: t := by
          simp only [splitSlash, hc, if_false, h]
        rw [List.cons_append, e, ih, h, e2]
        rfl

theorem splitSlash_joinSlash : ∀ (l : List Str), l ≠ [] → (∀ c ∈ l, '/' ∉ c) →
    splitSlash (joinSlash l) = l := by
  intro l
  induction l with
  | nil => intro h; exact absurd rfl h
  | cons x rest ih =>
    intro _ hs
    cases rest with
    | nil => exact splitSlash_noSlash x (hs x (List.mem_cons_self _ _))
    | cons y rest2 =>
      simp only [joinSlash]
      rw [splitSlash_append, splitSlash_noSlash x (hs x (List.mem_cons_self _ _)),
        ih (by simp) (fun c hc => hs c (List.mem_cons_of_mem _ hc))]
      rfl

theorem splitSlash_mem_noSlash : ∀ (s : Str), ∀ c ∈ splitSlash s, '/' ∉ c := by
  intro s
  induction s with
  | nil => intro c hc; simp [splitSlash] at hc; subst hc; simp
  | cons a cs ih =>
    intro c hc
    by_cases ha : a = '/'
    · simp only [splitSlash, ha, if_true, List.mem_cons] at hc
      rcases hc with rfl | hc
      · simp
      · exact ih c hc
    · cases h : splitSlash cs with
      | nil => exact absurd h (splitSlash_ne_nil cs)
      | cons x t =>
        simp only [splitSlash, ha, if_false, h, List.mem_cons] at hc
        rcases hc with rfl | hc
        · have hx := ih x (by rw [h]; exact List.mem_cons_self _ _)
          simp only [List.mem_cons, not_or]
          exact ⟨fun e => ha e.symm, hx⟩
        · exact ih c (by rw [h]; exact List.mem_cons_of_mem _ hc)

theorem joinSlash_append : ∀ (l m : List Str), l ≠ [] → m ≠ [] →
    joinSlash (l ++ m) = joinSlash l ++ '/' :: joinSlash m := by
  intro l
  induction l with
  | nil => intro m h; exact absurd rfl h
  | cons x rest ih =>
    intro m _ hm
    cases rest with
    | nil =>
      cases m with
      | nil => exact absurd rfl hm
      | cons y m2 => simp [joinSlash]
    | cons y rest2 =>
      have := ih m (by simp) hm
      show x ++ '/' :: joinSlash (y :: rest2 ++ m) = (x ++ '/' :: joinSlash (y :: rest2)) ++ _
      rw [this]
      simp

theorem joinSlash_head (x : Str) (rest : List Str) (hx : x ≠ []) :
    (joinSlash (x :: rest)).head? = x.head? := by
  cases rest with
  | nil => rfl
  | cons y r => simp only [joinSlash]; exact List.head?_append_of_ne_nil _ hx

theorem cleanStep_plain (r : Bool) (st : List Str) {c : Str} (h : plainElement c) :
    cleanStep r st c = c :: st := by
  obtain ⟨h1, h2, h3, -⟩ := h
  simp [cleanStep, h1, h2, h3]

theorem foldl_cleanStep_plain (r : Bool) : ∀ (xs : List Str) (st : List Str),
    (∀ c ∈ xs, plainElement c) → xs.foldl (cleanStep r) st = xs.reverse ++ st := by
  intro xs
  induction xs with
  | nil => intro st _; rfl
  | cons x rest ih =>
    intro st h
    simp only [List.foldl_cons, cleanStep_plain r st (h x (List.mem_cons_self _ _))]
    rw [ih _ (fun c hc => h c (List.mem_cons_of_mem _ hc))]
    simp

theorem cleanStep_ok (r : Bool) (st : List Str) (c : Str) (hst : StackOK r st)
    (hc : '/' ∉ c) : StackOK r (cleanStep r st c) := by
  obtain ⟨ns, k, rfl, hns, hk⟩ := hst
  by_cases h1 : c = [] ∨ c = ['.']
  · simp only [cleanStep, h1, if_true]; exact ⟨ns, k, rfl, hns, hk⟩
  · by_cases h2 : c = dotdot
    · subst h2
      cases ns with
      | nil =>
        cases k with
        | zero =>
          cases r with
          | false => exact ⟨[], 1, by simp [cleanStep, dotdot], by simp, by simp⟩
          | true => exact ⟨[], 0, by simp [cleanStep, dotdot], by simp, by simp⟩
        | succ k2 =>
          have hr : r = false := by
            cases r with
            | false => rfl
            | true => exact absurd (hk rfl) (by simp)
          refine ⟨[], k2 + 2, ?_, by simp, by simp [hr]⟩
          simp [cleanStep, dotdot, List.replicate_succ]
      | cons t ns2 =>
        have ht := hns t (List.mem_cons_self _ _)
        refine ⟨ns2, k, ?_, fun c hc => hns c (List.mem_cons_of_mem _ hc), hk⟩
        have : t ≠ dotdot := ht.2.2.1
        simp [cleanStep, dotdot, this] at *
        simp [this]
    · have hp : plainElement c := by
        simp only [not_or] at h1
        exact ⟨h1.1, h1.2, h2, hc⟩
      rw [cleanStep_plain r _ hp]
      refine ⟨c :: ns, k, by simp, ?_, hk⟩
      intro x hx
      rcases List.mem_cons.1 hx with rfl | hx
      · exact hp
      · exact hns x hx

theorem foldl_cleanStep_ok (r : Bool) : ∀ (xs : List Str) (st : List Str), StackOK r st →
    (∀ c ∈ xs, '/' ∉ c) → StackOK r (xs.foldl (cleanStep r) st) := by
  intro xs
  induction xs with
  | nil => intro st h _; exact h
  | cons x rest ih =>
    intro st h hs
    exact ih _ (cleanStep_ok r st x h (hs x (List.mem_cons_self _ _)))
      (fun c hc => hs c (List.mem_cons_of_mem _ hc))

theorem cleanStack_ok (p : Str) : StackOK (isRooted p) (cleanStack p) :=
  foldl_cleanStep_ok _ _ _ ⟨[], 0, rfl, by simp, by simp⟩ (splitSlash_mem_noSlash p)

theorem foldl_cleanStep_dots (r : Bool) : ∀ (k j : Nat), (r = true → k = 0) →
    (List.replicate k dotdot).foldl (cleanStep r) (List.replicate j dotdot)
      = List.replicate (k + j) dotdot := by
  intro k
  induction k with
  | zero => intro j _; simp
  | succ k ih =>
    intro j hr
    have hr2 : r = false := by
      cases r with
      | false => rfl
      | true => exact absurd (hr rfl) (by simp)
    subst hr2
    have hstep : cleanStep false (List.replicate j dotdot) dotdot
        = List.replicate (j + 1) dotdot := by
      cases j with
      | zero => simp [cleanStep, dotdot]
      | succ j2 => simp [cleanStep, dotdot, List.replicate_succ]
    rw [List.replicate_succ, List.foldl_cons, hstep, ih (j + 1) (by simp)]
    congr 1
    omega

theorem foldl_cleanStep_rebuild (r : Bool) (st : List Str) (h : StackOK r st) :
    st.reverse.foldl (cleanStep r) [] = st := by
  obtain ⟨ns, k, rfl, hns, hk⟩ := h
  rw [List.reverse_append, List.reverse_replicate, List.foldl_append]
  have := foldl_cleanStep_dots r k 0 hk
  simp only [List.replicate_zero, Nat.add_zero] at this
  rw [this, foldl_cleanStep_plain r _ _ (fun c hc => hns c (List.mem_reverse.1 hc))]
  simp

theorem stackOK_mem {r : Bool} {st : List Str} (h : StackOK r st) :
    ∀ c ∈ st, c ≠ [] ∧ '/' ∉ c := by
  obtain ⟨ns, k, rfl, hns, -⟩ := h
  intro c hc
  rcases List.mem_append.1 hc with hc | hc
  · exact ⟨(hns c hc).1, (hns c hc).2.2.2⟩
  · rw [(List.mem_replicate.1 hc).2]
    exact ⟨by simp [dotdot], by simp [dotdot]⟩

theorem clean_of (p : Str) (l : List Str) (hl : (cleanStack p).reverse = l)
    (hne : joinSlash l ≠ []) :
    filepathClean p = (if isRooted p then ['/'] else []) ++ joinSlash l := by
  unfold filepathClean
  rw [hl]
  cases isRooted p
  · simp [hne]
  · simp

theorem joinSlash_ne_nil (l cs : List Str) (hne : cs ≠ []) (hp : ∀ c ∈ cs, c ≠ []) :
    joinSlash (l ++ cs) ≠ [] := by
  by_cases hl : l = []
  · subst hl
    cases cs with
    | nil => exact absurd rfl hne
    | cons c rest =>
      intro e
      have := joinSlash_head c rest (hp c (List.mem_cons_self _ _))
      rw [List.nil_append] at e
      rw [e] at this
      cases c with
      | nil => exact hp [] (List.mem_cons_self _ _) rfl
      | cons a t => simp at this
  · rw [joinSlash_append l cs hl hne]
    simp

theorem dirStack_ok (dir : Str) : ∀ c ∈ dirStack dir, c ≠ [] ∧ '/' ∉ c := by
  intro c hc
  exact stackOK_mem (cleanStack_ok dir) c (List.mem_reverse.1 hc)

/-- `filepath.Join` of a directory and plain elements: the cleaned directory
followed by the elements. -/
theorem filepathJoin_dir (dir : Str) (cs : List Str) (hne : cs ≠ [])
    (hp : ∀ c ∈ cs, plainElement c) :
    filepathJoin (dir :: cs) = rootMark dir ++ joinSlash (dirStack dir ++ cs) := by
  obtain ⟨c0, rest, rfl⟩ : ∃ c0 rest, cs = c0 :: rest := by
    cases cs with
    | nil => exact absurd rfl hne
    | cons c0 rest => exact ⟨c0, rest, rfl⟩
  have hc0 := hp c0 (List.mem_cons_self _ _)
  have hslash : ∀ c ∈ c0 :: rest, '/' ∉ c := fun c hc => (hp c hc).2.2.2
  have hnil : ∀ c ∈ c0 :: rest, c ≠ [] := fun c hc => (hp c hc).1
  by_cases hd : dir = []
  · subst hd
    have h0 : filepathJoin ([] :: c0 :: rest) = filepathClean (joinSlash (c0 :: rest)) := by
      simp [filepathJoin, List.dropWhile, hc0.1]
    have hroot : isRooted (joinSlash (c0 :: rest)) = false := by
      unfold isRooted
      rw [joinSlash_head c0 rest hc0.1]
      cases hc : c0 with
      | nil => exact absurd hc hc0.1
      | cons a t =>
        have : a ≠ '/' := fun e => hc0.2.2.2 (by rw [hc, e]; exact List.mem_cons_self _ _)
        simp [this]
    have hstack : (cleanStack (joinSlash (c0 :: rest))).reverse = c0 :: rest := by
      unfold cleanStack
      rw [splitSlash_joinSlash _ (by simp) hslash, foldl_cleanStep_plain _ _ _ hp]
      simp
    rw [h0, clean_of _ _ hstack (joinSlash_ne_nil [] _ (by simp) hnil), hroot]
    simp [rootMark, isRooted, dirStack, cleanStack, splitSlash, cleanStep]
  · have h0 : filepathJoin (dir :: c0 :: rest)
        = filepathClean (dir ++ '/' :: joinSlash (c0 :: rest)) := by
      simp [filepathJoin, List.dropWhile, hd, joinSlash]
    have hroot : isRooted (dir ++ '/' :: joinSlash (c0 :: rest)) = isRooted dir := by
      unfold isRooted
      rw [List.head?_append_of_ne_nil _ hd]
    have hstack : (cleanStack (dir ++ '/' :: joinSlash (c0 :: rest))).reverse
        = dirStack dir ++ (c0 :: rest) := by
      unfold cleanStack dirStack
      rw [hroot, splitSlash_append, splitSlash_joinSlash _ (by simp) hslash, List.foldl_append,
        foldl_cleanStep_plain _ _ _ hp]
      simp [cleanStack]
    rw [h0, clean_of _ _ hstack (joinSlash_ne_nil _ _ (by simp) hnil), hroot]
    rfl

theorem dirStack_of (p : Str) (r : Bool) (l : List Str) (hr : isRooted p = r)
    (hs : (splitSlash p).foldl (cleanStep r) [] = l) : dirStack p = l.reverse := by
  subst hr
  rw [← hs]
  rfl

/-- Cleaning a path that `filepath.Join` produced gives the same elements. -/
theorem joined_dir (dir : Str) (cs : List Str) (hne : cs ≠ [])
    (hp : ∀ c ∈ cs, plainElement c) :
    rootMark (rootMark dir ++ joinSlash (dirStack dir ++ cs)) = rootMark dir ∧
    dirStack (rootMark dir ++ joinSlash (dirStack dir ++ cs)) = dirStack dir ++ cs := by
  have hmem : ∀ c ∈ dirStack dir ++ cs, c ≠ [] ∧ '/' ∉ c := by
    intro c hc
    rcases List.mem_append.1 hc with hc | hc
    · exact dirStack_ok dir c hc
    · exact ⟨(hp c hc).1, (hp c hc).2.2.2⟩
  obtain ⟨m0, mrest, hm⟩ : ∃ m0 mrest, dirStack dir ++ cs = m0 :: mrest := by
    cases h : dirStack dir ++ cs with
    | nil => simp [hne] at h
    | cons m0 mrest => exact ⟨m0, mrest, rfl⟩
  have hm0 := hmem m0 (by rw [hm]; exact List.mem_cons_self _ _)
  have hhead : (joinSlash (dirStack dir ++ cs)).head? ≠ some '/' := by
    rw [hm, joinSlash_head m0 mrest hm0.1]
    cases h0 : m0 with
    | nil => exact absurd h0 hm0.1
    | cons a t =>
      have : a ≠ '/' := fun e => hm0.2 (by rw [h0, e]; exact List.mem_cons_self _ _)
      simp [this]
  have hfold : (dirStack dir ++ cs).foldl (cleanStep (isRooted dir)) []
      = cs.reverse ++ cleanStack dir := by
    rw [List.foldl_append]
    have := foldl_cleanStep_rebuild (isRooted dir) (cleanStack dir) (cleanStack_ok dir)
    unfold dirStack
    rw [this, foldl_cleanStep_plain _ _ _ hp]
  cases hr : isRooted dir with
  | false =>
    have hX : rootMark dir ++ joinSlash (dirStack dir ++ cs) = joinSlash (dirStack dir ++ cs) := by
      simp [rootMark, hr]
    have hroot : isRooted (joinSlash (dirStack dir ++ cs)) = false := by
      unfold isRooted
      cases hh : (joinSlash (dirStack dir ++ cs)).head? with
      | none => rfl
      | some a =>
        have : a ≠ '/' := fun e => hhead (by rw [hh, e])
        simp [this]
    rw [hX]
    refine ⟨by simp [rootMark, hroot, hr], ?_⟩
    rw [hr] at hfold
    have hds := dirStack_of (joinSlash (dirStack dir ++ cs)) false (cs.reverse ++ cleanStack dir)
      hroot (by
        rw [splitSlash_joinSlash _ (by rw [hm]; simp) (fun c hc => (hmem c hc).2)]
        exact hfold)
    rw [hds]
    simp [dirStack]
  | true =>
    have hX : rootMark dir ++ joinSlash (dirStack dir ++ cs)
        = '/' :: joinSlash (dirStack dir ++ cs) := by
      simp [rootMark, hr]
    have hroot : isRooted ('/' :: joinSlash (dirStack dir ++ cs)) = true := by
      simp [isRooted]
    rw [hX]
    refine ⟨by simp [rootMark, hroot, hr], ?_⟩
    have hsplit : splitSlash ('/' :: joinSlash (dirStack dir ++ cs))
        = [] :: (dirStack dir ++ cs) := by
      have := splitSlash_joinSlash (dirStack dir ++ cs) (by rw [hm]; simp)
        (fun c hc => (hmem c hc).2)
      simp [splitSlash, this]
    rw [hr] at hfold
    have hskip : cleanStep true [] [] = [] := by simp [cleanStep]
    have hds := dirStack_of ('/' :: joinSlash (dirStack dir ++ cs)) true
      (cs.reverse ++ cleanStack dir) hroot (by
        rw [hsplit, List.foldl_cons, hskip]
        exact hfold)
    rw [hds]
    simp [dirStack]

theorem fmtInt_plainElement (i : Int) : plainElement (fmtInt i) := by
  have hp := fmtInt_plain i
  refine ⟨fmtInt_ne_nil i, ?_, ?_, fun h => (hp _ h).1 rfl⟩
  · intro e
    exact (hp '.' (by rw [e]; simp)).2 rfl
  · intro e
    exact (hp '.' (by rw [e]; simp [dotdot])).2 rfl

theorem queuesLit_plainElement : plainElement queuesLit := by
  unfold plainElement
  decide

theorem storeFile_plainElement (i : Int) : plainElement (fmtInt i ++ sqliteExt) := by
  have hp := fmtInt_plain i
  have hne := fmtInt_ne_nil i
  obtain ⟨a, t, hat⟩ : ∃ a t, fmtInt i = a :: t := by
    cases h : fmtInt i with
    | nil => exact absurd h hne
    | cons a t => exact ⟨a, t, rfl⟩
  have ha : a ≠ '.' := (hp a (by rw [hat]; exact List.mem_cons_self _ _)).2
  refine ⟨by simp [hne], ?_, ?_, ?_⟩
  · rw [hat]; intro e
    simp only [List.cons_append, List.cons.injEq] at e
    exact ha e.1
  · rw [hat]; intro e
    simp only [List.cons_append, dotdot, List.cons.injEq] at e
    exact ha e.1
  · intro h
    rcases List.mem_append.1 h with h | h
    · exact (hp _ h).1 rfl
    · revert h; unfold sqliteExt; decide

/-- The store path is the cleaned workspaces directory followed by
`<workspace id>/queues/<queue id>.sqlite`. -/
theorem queuePath_eq (dir : Str) (workspaceID id : Int) :
    queuePath dir workspaceID id
      = dirLead dir ++ (fmtInt workspaceID ++ '/' :: (queuesLit ++ '/' ::
          (fmtInt id ++ sqliteExt))) := by
  have hj := filepathJoin_dir dir [fmtInt workspaceID, queuesLit, fmtInt id ++ sqliteExt]
    (by simp) (by
      intro c hc
      simp only [List.mem_cons, List.mem_singleton, List.not_mem_nil, or_false] at hc
      rcases hc with rfl | rfl | rfl
      · exact fmtInt_plainElement _
      · exact queuesLit_plainElement
      · exact storeFile_plainElement _)
  unfold queuePath dirLead
  rw [hj]
  by_cases hd : dirStack dir = []
  · simp [hd, joinSlash]
  · rw [joinSlash_append _ _ hd (by simp)]
    simp [hd, joinSlash]

/-- The path `createQueue` builds in two `filepath.Join` steps is the store
path the other operations build in one. -/
theorem createPath_eq (dir : Str) (workspaceID id : Int) :
    createPath dir workspaceID id = queuePath dir workspaceID id := by
  have h2 : ∀ c ∈ [fmtInt workspaceID, queuesLit], plainElement c := by
    intro c hc
    simp only [List.mem_cons, List.mem_singleton, List.not_mem_nil, or_false] at hc
    rcases hc with rfl | rfl
    · exact fmtInt_plainElement _
    · exact queuesLit_plainElement
  have h1 : ∀ c ∈ [fmtInt id ++ sqliteExt], plainElement c := by
    intro c hc
    simp only [List.mem_singleton] at hc
    subst hc
    exact storeFile_plainElement _
  have h3 : ∀ c ∈ [fmtInt workspaceID, queuesLit, fmtInt id ++ sqliteExt], plainElement c := by
    intro c hc
    simp only [List.mem_cons, List.mem_singleton, List.not_mem_nil, or_false] at hc
    rcases hc with rfl | rfl | rfl
    · exact fmtInt_plainElement _
    · exact queuesLit_plainElement
    · exact storeFile_plainElement _
  unfold createPath queueDir queuePath
  rw [filepathJoin_dir dir _ (by simp) h2, filepathJoin_dir _ _ (by simp) h1,
    (joined_dir dir _ (by simp) h2).1, (joined_dir dir _ (by simp) h2).2,
    filepathJoin_dir dir _ (by simp) h3]
  simp

theorem append_slash_inj : ∀ (a b r s : Str), '/' ∉ a → '/' ∉ b →
    a ++ '/' :: r = b ++ '/' :: s → a = b ∧ r = s := by
  intro a
  induction a with
  | nil =>
    intro b r s _ hb h
    cases b with
    | nil => simpa using h
    | cons y t =>
      simp only [List.nil_append, List.cons_append, List.cons.injEq] at h
      exact absurd (by rw [← h.1]; exact List.mem_cons_self _ _) hb
  | cons x t ih =>
    intro b r s ha hb h
    cases b with
    | nil =>
      simp only [List.nil_append, List.cons_append, List.cons.injEq] at h
      exact absurd (by rw [h.1]; exact List.mem_cons_self _ _) ha
    | cons y t2 =>
      simp only [List.cons_append, List.cons.injEq] at h
      have := ih t2 r s (fun m => ha (List.mem_cons_of_mem _ m))
        (fun m => hb (List.mem_cons_of_mem _ m)) h.2
      exact ⟨by rw [h.1, this.1], this.2⟩

/-- Two store paths under one workspaces directory are equal only for the same
workspace id and queue id. -/
theorem queuePath_inj {dir : Str} {ws id ws2 id2 : Int}
    (h : queuePath dir ws id = queuePath dir ws2 id2) : ws = ws2 ∧ id = id2 := by
  rw [queuePath_eq, queuePath_eq] at h
  have h1 := List.append_cancel_left h
  have h2 := append_slash_inj _ _ _ _ (fun m => (fmtInt_plain ws _ m).1 rfl)
    (fun m => (fmtInt_plain ws2 _ m).1 rfl) h1
  have h3 := List.append_cancel_left h2.2
  simp only [List.cons.injEq, true_and] at h3
  exact ⟨fmtInt_inj h2.1, fmtInt_inj (List.append_cancel_right h3)⟩

/-! ## The dispatch loop: frame, termination, events -/

theorem storeReceive_ok {fails : Bool} {now lease : Nat} {fs fs1 : Fs} {path name : Str}
    {m : Message} (h : storeReceive fails now lease fs path name = .ok (m, fs1)) :
    ∃ st l1, fs path = some st ∧ leaseFirst name now lease st.msgs = some (m, l1) ∧
      fs1 = fs.write path { st with msgs := l1 } := by
  unfold storeReceive at h
  cases fails with
  | true => simp at h
  | false =>
    cases hf : fs path with
    | none => simp [hf] at h
    | some st =>
      cases hl : leaseFirst name now lease st.msgs with
      | none => simp [hf, hl] at h
      | some pr =>
        obtain ⟨m1, l1⟩ := pr
        simp only [Bool.false_eq_true, if_false, hf, hl, Except.ok.injEq, Prod.mk.injEq] at h
        exact ⟨st, l1, rfl, by rw [hl, h.1], h.2.symm⟩

theorem storeDelete_ok {fails : Bool} {fs1 fs2 : Fs} {path name : Str} {msgID : Nat}
    (h : storeDelete fails fs1 path name msgID = .ok fs2) :
    ∃ st, fs1 path = some st ∧
      fs2 = fs1.write path
        { st with msgs := st.msgs.filter (fun m => ¬ (m.queue = name ∧ m.id = msgID)) } := by
  unfold storeDelete at h
  cases fails with
  | true => simp at h
  | false =>
    cases hf : fs1 path with
    | none => simp [hf] at h
    | some st =>
      by_cases ha : st.msgs.any (fun m => decide (m.queue = name ∧ m.id = msgID)) = true
      · simp only [Bool.false_eq_true, if_false, hf, ha, if_true, Except.ok.injEq] at h
        exact ⟨st, rfl, h.symm⟩
      · simp only [Bool.false_eq_true, if_false, hf, ha] at h
        cases h

theorem size_write_same (fs : Fs) (path : Str) (st : Store) :
    (fs.write path st).size path = st.msgs.length := by
  simp [Fs.size, Fs.write]

theorem size_of_some {fs : Fs} {path : Str} {st : Store} (h : fs path = some st) :
    fs.size path = st.msgs.length := by
  simp [Fs.size, h]

/-- A received message can be deleted, and the store shrinks. -/
theorem receive_then_delete {now lease : Nat} {fs fs1 : Fs} {path name : Str} {m : Message}
    (h : storeReceive false now lease fs path name = .ok (m, fs1)) :
    fs1.size path = fs.size path ∧ (∀ p, p ≠ path → fs1 p = fs p) ∧
    ∃ fs2, storeDelete false fs1 path name m.id = .ok fs2 ∧ fs2.size path < fs.size path ∧
      ∀ p, p ≠ path → fs2 p = fs p := by
  obtain ⟨st, l1, hfs, hl, rfl⟩ := storeReceive_ok h
  obtain ⟨-, hlen, hany⟩ := leaseFirst_spec name now lease st.msgs hl
  refine ⟨by rw [size_write_same, size_of_some hfs]; exact hlen,
    fun p hp => write_other _ _ _ hp, ?_⟩
  refine ⟨(fs.write path { st with msgs := l1 }).write path
      { st with msgs := l1.filter (fun x => ¬ (x.queue = name ∧ x.id = m.id)) }, ?_, ?_, ?_⟩
  · simp only [storeDelete, Bool.false_eq_true, if_false, write_same, hany, if_true]
  · rw [size_write_same, size_of_some hfs, ← hlen]
    rw [List.length_filter_lt_length_iff_exists]
    obtain ⟨x, hx, hpx⟩ := List.any_eq_true.1 hany
    exact ⟨x, hx, by simpa using hpx⟩
  · intro p hp
    rw [write_other _ _ _ hp, write_other _ _ _ hp]

theorem processLoop_frame (path name : Str) (queueID : Int) (env : LoopEnv) (cat : Catalog) :
    ∀ (fuel k : Nat) (fs : Fs),
      (∀ p, p ≠ path → (processLoop path name queueID env cat fuel k fs).2.1 p = fs p) ∧
      (processLoop path name queueID env cat fuel k fs).2.1.size path ≤ fs.size path := by
  intro fuel
  induction fuel with
  | zero => intro k fs; exact ⟨fun _ _ => rfl, le_refl _⟩
  | succ f ih =>
    intro k fs
    cases hr : storeReceive (env.tick k).receiveFails (env.tick k).now env.lease fs path name
      with
    | error e =>
      by_cases he : e = .noRows
      · simp only [processLoop, hr, he, if_true]; exact ⟨fun _ _ => trivial, le_refl _⟩
      · simp only [processLoop, hr, he, if_false]; exact ⟨fun _ _ => trivial, le_refl _⟩
    | ok pr =>
      obtain ⟨msg, fs1⟩ := pr
      obtain ⟨st, l1, hfs, hl, hfs1⟩ := storeReceive_ok hr
      have hlen := (leaseFirst_spec name _ _ st.msgs hl).2.1
      have h1 : ∀ p, p ≠ path → fs1 p = fs p := by
        intro p hp; rw [hfs1]; exact write_other _ _ _ hp
      have h1s : fs1.size path = fs.size path := by
        rw [hfs1, size_write_same, size_of_some hfs]; exact hlen
      cases hd : storeDelete (env.tick k).deleteFails fs1 path name msg.id with
      | error e2 =>
        simp only [processLoop, hr, hd]
        obtain ⟨i1, i2⟩ := ih (k + 1) fs1
        exact ⟨fun p hp => (i1 p hp).trans (h1 p hp), by omega⟩
      | ok fs2 =>
        simp only [processLoop, hr, hd]
        obtain ⟨st1, hst1, hfs2⟩ := storeDelete_ok hd
        obtain ⟨i1, i2⟩ := ih (k + 1) fs2
        have h2 : ∀ p, p ≠ path → fs2 p = fs1 p := by
          intro p hp; rw [hfs2]; exact write_other _ _ _ hp
        have h2s : fs2.size path ≤ fs1.size path := by
          rw [hfs2, size_write_same, size_of_some hst1]
          exact List.length_filter_le _ _
        exact ⟨fun p hp => ((i1 p hp).trans (h2 p hp)).trans (h1 p hp), by omega⟩

theorem processLoop_returns (path name : Str) (queueID : Int) (env : LoopEnv) (cat : Catalog)
    (hnd : ∀ j, (env.tick j).deleteFails = false) :
    ∀ (fuel k : Nat) (fs : Fs), fs.size path < fuel →
      (processLoop path name queueID env cat fuel k fs).1 ≠ .running := by
  intro fuel
  induction fuel with
  | zero => intro k fs h; omega
  | succ f ih =>
    intro k fs hsize
    cases hrf : (env.tick k).receiveFails with
    | true =>
      have hr : storeReceive (env.tick k).receiveFails (env.tick k).now env.lease fs path name
          = .error .io := by simp [storeReceive, hrf]
      simp [processLoop, hr]
    | false =>
      cases hr : storeReceive (env.tick k).receiveFails (env.tick k).now env.lease fs path name
        with
      | error e =>
        by_cases he : e = .noRows
        · simp [processLoop, hr, he]
        · simp [processLoop, hr, he]
      | ok pr =>
        obtain ⟨msg, fs1⟩ := pr
        rw [hrf] at hr
        obtain ⟨-, -, fs2, hd, hlt, -⟩ := receive_then_delete hr
        simp only [processLoop, hrf, hr, hnd k, hd]
        exact ih (k + 1) fs2 (by omega)

theorem processLoop_events (path name : Str) (queueID : Int) (env : LoopEnv) (cat : Catalog) :
    ∀ (fuel k : Nat) (fs : Fs),
      ∀ e ∈ (processLoop path name queueID env cat fuel k fs).2.2,
        Ev.ofQueue path name queueID e := by
  intro fuel
  induction fuel with
  | zero => intro k fs e he; simp [processLoop] at he
  | succ f ih =>
    intro k fs e he
    have hturn : ∀ (body : Str) (msgID : Nat) (noise nlog dlog tr : List Ev),
        (∀ x ∈ noise, Ev.isNoise x = true) → (∀ x ∈ nlog, Ev.isNoise x = true) →
        (∀ x ∈ dlog, Ev.isNoise x = true) → (∀ x ∈ tr, Ev.ofQueue path name queueID x) →
        ∀ x ∈ Ev.receive path name :: ((Ev.notify queueID body :: noise) ++ nlog ++
            (Ev.delete path name msgID :: dlog) ++ tr), Ev.ofQueue path name queueID x := by
      intro body msgID noise nlog dlog tr h1 h2 h3 h4 x hx
      simp only [List.mem_cons, List.mem_append] at hx
      rcases hx with rfl | ((((rfl | hx) | hx) | (rfl | hx)) | hx)
      · exact Or.inr (Or.inr (Or.inl rfl))
      · exact Or.inr (Or.inl ⟨body, rfl⟩)
      · exact Or.inl (h1 x hx)
      · exact Or.inl (h2 x hx)
      · exact Or.inr (Or.inr (Or.inr ⟨msgID, rfl⟩))
      · exact Or.inl (h3 x hx)
      · exact h4 x hx
    cases hr : storeReceive (env.tick k).receiveFails (env.tick k).now env.lease fs path name
      with
    | error e1 =>
      have : e = .receive path name := by
        by_cases h1 : e1 = .noRows
        · simpa [processLoop, hr, h1] using he
        · simpa [processLoop, hr, h1] using he
      exact Or.inr (Or.inr (Or.inl this))
    | ok pr =>
      obtain ⟨msg, fs1⟩ := pr
      obtain ⟨noise, hn, hnoise⟩ := notifySubscribers_events (env.tick k).listFails
        (env.tick k).respond cat queueID msg.body
      cases hd : storeDelete (env.tick k).deleteFails fs1 path name msg.id with
      | error e2 =>
        simp only [processLoop, hr, hd, hn] at he
        exact hturn msg.body msg.id noise _ [.log (.deleteError msg.id queueID)] _ hnoise
          (nlog_noise _ _) (fun x hx => by simp only [List.mem_singleton] at hx; subst hx; rfl)
          (ih (k + 1) fs1) e he
      | ok fs2 =>
        simp only [processLoop, hr, hd, hn] at he
        exact hturn msg.body msg.id noise _ [] _ hnoise (nlog_noise _ _)
          (fun x hx => by cases hx) (ih (k + 1) fs2) e he

theorem processQueueMessages_eq_loop {fuel : Nat} {dir : Str} {env : LoopEnv} {cat : Catalog}
    {fs : Fs} {queueID workspaceID : Int} (hopen : env.openFails = false) :
    processQueueMessages fuel dir env cat fs queueID workspaceID
      = processLoop (queuePath dir workspaceID queueID) (queueName queueID) queueID env cat
          fuel 0 fs := by
  simp [processQueueMessages, hopen, queuePath, queueName]

theorem processQueueMessages_open_fails {fuel : Nat} {dir : Str} {env : LoopEnv} {cat : Catalog}
    {fs : Fs} {queueID workspaceID : Int} (hopen : env.openFails = true) :
    processQueueMessages fuel dir env cat fs queueID workspaceID = (.err .io, fs, []) := by
  simp [processQueueMessages, hopen]

theorem processQueueMessages_frame (fuel : Nat) (dir : Str) (env : LoopEnv) (cat : Catalog)
    (fs : Fs) (queueID workspaceID : Int) :
    (∀ p, p ≠ queuePath dir workspaceID queueID →
      (processQueueMessages fuel dir env cat fs queueID workspaceID).2.1 p = fs p) ∧
    ∀ p, (processQueueMessages fuel dir env cat fs queueID workspaceID).2.1.size p ≤ fs.size p := by
  cases hopen : env.openFails with
  | true =>
    rw [processQueueMessages_open_fails hopen]
    exact ⟨fun _ _ => rfl, fun _ => le_refl _⟩
  | false =>
    rw [processQueueMessages_eq_loop hopen]
    obtain ⟨h1, h2⟩ := processLoop_frame (queuePath dir workspaceID queueID)
      (queueName queueID) queueID env cat fuel 0 fs
    refine ⟨h1, fun p => ?_⟩
    by_cases hp : p = queuePath dir workspaceID queueID
    · rw [hp]; exact h2
    · simp only [Fs.size, h1 p hp]; exact le_refl _

theorem processQueueMessages_returns (fuel : Nat) (dir : Str) (env : LoopEnv) (cat : Catalog)
    (fs : Fs) (queueID workspaceID : Int) (hnd : ∀ j, (env.tick j).deleteFails = false)
    (hsize : fs.size (queuePath dir workspaceID queueID) < fuel) :
    (processQueueMessages fuel dir env cat fs queueID workspaceID).1 ≠ .running := by
  cases hopen : env.openFails with
  | true => rw [processQueueMessages_open_fails hopen]; simp
  | false =>
    rw [processQueueMessages_eq_loop hopen]
    exact processLoop_returns _ _ queueID env cat hnd fuel 0 fs hsize

theorem processQueueMessages_events (fuel : Nat) (dir : Str) (env : LoopEnv) (cat : Catalog)
    (fs : Fs) (queueID workspaceID : Int) :
    ∀ e ∈ (processQueueMessages fuel dir env cat fs queueID workspaceID).2.2,
      Ev.ofQueue (queuePath dir workspaceID queueID) (queueName queueID) queueID e := by
  cases hopen : env.openFails with
  | true => rw [processQueueMessages_open_fails hopen]; intro e he; cases he
  | false =>
    rw [processQueueMessages_eq_loop hopen]
    exact processLoop_events _ _ queueID env cat fuel 0 fs

theorem invocations_ofQueue {path name : Str} {queueID : Int} {l : List Ev}
    (h : ∀ e ∈ l, Ev.ofQueue path name queueID e) : invocations l = [] := by
  rw [invocations, List.filterMap_eq_nil_iff]
  intro e he
  rcases h e he with h | ⟨b, rfl⟩ | rfl | ⟨m, rfl⟩
  · cases e <;> simp_all [Ev.isNoise]
  · rfl
  · rfl
  · rfl

theorem clog_noise (r : Res) (queueID : Int) :
    ∀ e ∈ (if r = .ok then ([] : List Ev) else [.log (.queueError queueID)]),
      Ev.isNoise e = true := by
  intro e he
  by_cases h : r = .ok
  · simp [h] at he
  · simp only [h, if_false, List.mem_singleton] at he; subst he; rfl

theorem processRows_invocations (fuel : Nat) (dir : Str) (env : DispatchEnv) (cat : Catalog)
    (hlist : ∀ j, env.nextFails j = false ∧ env.scanFails j = false) :
    ∀ (rows : List Queue) (j : Nat) (fs : Fs),
      (processRows fuel dir env cat j rows fs).1 ≠ .running →
      invocations (processRows fuel dir env cat j rows fs).2.2
        = rows.map (fun q => (q.id, q.workspaceID)) := by
  intro rows
  induction rows with
  | nil => intro j fs _; rfl
  | cons row rest ih =>
    intro j fs hrun
    by_cases hc : (processQueueMessages fuel dir (env.queue j) cat fs row.id
        row.workspaceID).1 = .running
    · simp [processRows, (hlist j).1, (hlist j).2, hc] at hrun
    · simp only [processRows, (hlist j).1, (hlist j).2, hc, Bool.false_eq_true, if_false]
        at hrun ⊢
      have hinv := invocations_ofQueue (processQueueMessages_events fuel dir (env.queue j) cat
        fs row.id row.workspaceID)
      rw [show ∀ l : List Ev, invocations (Ev.invoke row.id row.workspaceID :: l)
          = (row.id, row.workspaceID) :: invocations l from fun l => by simp [invocations],
        invocations_append, invocations_append, hinv, invocations_noise (clog_noise _ _),
        ih (j + 1) _ hrun]
      rfl

theorem processRows_returns (fuel : Nat) (dir : Str) (env : DispatchEnv) (cat : Catalog)
    (hnd : ∀ j k, ((env.queue j).tick k).deleteFails = false) :
    ∀ (rows : List Queue) (j : Nat) (fs : Fs), (∀ p, fs.size p < fuel) →
      (processRows fuel dir env cat j rows fs).1 = .ok := by
  intro rows
  induction rows with
  | nil => intro j fs _; rfl
  | cons row rest ih =>
    intro j fs hsize
    by_cases hn : env.nextFails j = true
    · simp [processRows, hn]
    · by_cases hs : env.scanFails j = true
      · simp only [processRows, hn, hs, if_true, if_false]
        exact ih (j + 1) fs hsize
      · have hc := processQueueMessages_returns fuel dir (env.queue j) cat fs row.id
          row.workspaceID (hnd j) (hsize _)
        simp only [processRows, hn, hs, hc, if_false]
        exact ih (j + 1) _ (fun p => lt_of_le_of_lt
          ((processQueueMessages_frame fuel dir (env.queue j) cat fs row.id
            row.workspaceID).2 p) (hsize p))

theorem processRows_events (fuel : Nat) (dir : Str) (env : DispatchEnv) (cat : Catalog) :
    ∀ (rows : List Queue) (j : Nat) (fs : Fs),
      ∀ e ∈ (processRows fuel dir env cat j rows fs).2.2,
        Ev.isNoise e = true ∨ ∃ row ∈ rows, e = .invoke row.id row.workspaceID ∨
          Ev.ofQueue (queuePath dir row.workspaceID row.id) (queueName row.id) row.id e := by
  intro rows
  induction rows with
  | nil => intro j fs e he; simp [processRows] at he
  | cons row rest ih =>
    intro j fs e he
    have hrest : ∀ j fs, ∀ e ∈ (processRows fuel dir env cat j rest fs).2.2,
        Ev.isNoise e = true ∨ ∃ r ∈ row :: rest, e = .invoke r.id r.workspaceID ∨
          Ev.ofQueue (queuePath dir r.workspaceID r.id) (queueName r.id) r.id e := by
      intro j fs e he
      rcases ih j fs e he with h | ⟨r, hr, h⟩
      · exact Or.inl h
      · exact Or.inr ⟨r, List.mem_cons_of_mem _ hr, h⟩
    have hcall : ∀ e ∈ (processQueueMessages fuel dir (env.queue j) cat fs row.id
        row.workspaceID).2.2,
        Ev.isNoise e = true ∨ ∃ r ∈ row :: rest, e = .invoke r.id r.workspaceID ∨
          Ev.ofQueue (queuePath dir r.workspaceID r.id) (queueName r.id) r.id e :=
      fun e he => Or.inr ⟨row, List.mem_cons_self _ _,
        Or.inr (processQueueMessages_events fuel dir (env.queue j) cat fs row.id
          row.workspaceID e he)⟩
    by_cases hn : env.nextFails j = true
    · simp [processRows, hn] at he
    · by_cases hs : env.scanFails j = true
      · simp only [processRows, hn, hs, if_true, if_false, Bool.false_eq_true,
          List.mem_cons] at he
        rcases he with rfl | he
        · exact Or.inl rfl
        · exact hrest _ _ e he
      · by_cases hc : (processQueueMessages fuel dir (env.queue j) cat fs row.id
            row.workspaceID).1 = .running
        · simp only [processRows, hn, hs, hc, if_true, if_false, Bool.false_eq_true,
            List.mem_cons] at he
          rcases he with rfl | he
          · exact Or.inr ⟨row, List.mem_cons_self _ _, Or.inl rfl⟩
          · exact hcall e he
        · simp only [processRows, hn, hs, hc, if_false, Bool.false_eq_true, List.mem_cons,
            List.mem_append] at he
          rcases he with rfl | ((he | he) | he)
          · exact Or.inr ⟨row, List.mem_cons_self _ _, Or.inl rfl⟩
          · exact hcall e he
          · exact Or.inl (clog_noise _ _ e he)
          · exact hrest _ _ e he

/-- C10: in one call of `processMessages` whose listing succeeds, every call
that comes to its end has invoked `processQueueMessages` exactly once for each
catalog row, in listing order, and for nothing else, whatever the invocations
returned; it comes to its end when no `Delete` fails and the fuel exceeds the
store sizes.  After a successful `deleteQueue` of queue `i`, a call of
`processMessages` issues no invocation and no `notifySubscribers` call for `i`
and no `Receive` on the store path of `i`. -/
theorem processMessages_dispatch (fuel : Nat) (dir : Str) (env : DispatchEnv) :
    (∀ w : World, env.queryFails = false →
      (∀ j, env.nextFails j = false ∧ env.scanFails j = false) →
      ((processMessages fuel dir env w).1 ≠ .running →
        invocations (processMessages fuel dir env w).2.2
          = w.cat.queues.map (fun q => (q.id, q.workspaceID))) ∧
      ((∀ j k, ((env.queue j).tick k).deleteFails = false) → (∀ p, w.fs.size p < fuel) →
        (processMessages fuel dir env w).1 = .ok)) ∧
    (∀ (foreignKeys : Bool) (denv : DeleteEnv) (w : World) (i ws : Int),
      (w.cat.queues.map (fun r => r.id)).Nodup →
      (∃ q ∈ w.cat.queues, q.id = i ∧ q.workspaceID = ws) →
      (deleteQueue foreignKeys dir denv w i).1 = .ok →
      ∀ e ∈ (processMessages fuel dir env (deleteQueue foreignKeys dir denv w i).2.1).2.2,
        (∀ ws2, e ≠ .invoke i ws2) ∧ (∀ body, e ≠ .notify i body) ∧
        (∀ name, e ≠ .receive (queuePath dir ws i) name)) := by
  refine ⟨fun w hq hlist => ?_, ?_⟩
  · have he : processMessages fuel dir env w
        = processRows fuel dir env w.cat 0 w.cat.queues w.fs := by
      simp [processMessages, hq]
    rw [he]
    exact ⟨processRows_invocations fuel dir env w.cat hlist _ 0 w.fs,
      fun hnd hsize => processRows_returns fuel dir env w.cat hnd _ 0 w.fs hsize⟩
  · intro foreignKeys denv w i ws hpk hrow hok e he
    have hrows : ∀ q ∈ (deleteQueue foreignKeys dir denv w i).2.1.cat.queues, q.id ≠ i := by
      obtain ⟨ws1, -, heq⟩ := deleteQueue_ok_inv hok
      rw [heq]
      intro q hq
      simpa [deleteQueueRow] using (List.mem_filter.1 hq).2
    by_cases hq : env.queryFails = true
    · simp only [processMessages, hq, if_true, List.mem_singleton] at he
      refine ⟨?_, ?_, ?_⟩ <;> intro x h2 <;> rw [he] at h2 <;> cases h2
    · simp only [processMessages, hq, if_false, Bool.false_eq_true] at he
      rcases processRows_events fuel dir env _ _ 0 _ e he with h | ⟨row, hrow2, h⟩
      · refine ⟨?_, ?_, ?_⟩ <;> intro x h2 <;> rw [h2] at h <;> simp [Ev.isNoise] at h
      · have hid := hrows row hrow2
        rcases h with h | h | ⟨b, h⟩ | h | ⟨m, h⟩
        · refine ⟨?_, ?_, ?_⟩ <;> intro x h2 <;> rw [h] at h2
          · exact hid (Ev.invoke.inj h2).1
          · cases h2
          · cases h2
        · refine ⟨?_, ?_, ?_⟩ <;> intro x h2 <;> rw [h2] at h <;> simp [Ev.isNoise] at h
        · refine ⟨?_, ?_, ?_⟩ <;> intro x h2 <;> rw [h] at h2
          · cases h2
          · exact hid (Ev.notify.inj h2).1
          · cases h2
        · refine ⟨?_, ?_, ?_⟩ <;> intro x h2 <;> rw [h] at h2
          · cases h2
          · cases h2
          · exact hid (queuePath_inj (Ev.receive.inj h2).1).2
        · refine ⟨?_, ?_, ?_⟩ <;> intro x h2 <;> rw [h] at h2 <;> cases h2

/-- C10, on the example state with the two messages of queue 1. -/
theorem processMessages_dispatch_witness :
    (DispatchEnv.listing (LoopEnv.calm 0 5)).queryFails = false ∧
    (∀ p, sampleLoaded.fs.size p < 3) ∧
    (processMessages 3 sampleDir (DispatchEnv.listing (LoopEnv.calm 0 5)) sampleLoaded).1
      = .ok ∧
    invocations
      (processMessages 3 sampleDir (DispatchEnv.listing (LoopEnv.calm 0 5)) sampleLoaded).2.2
      = [(1, 1)] ∧
    (deleteQueue false sampleDir DeleteEnv.noFault sampleLoaded 1).1 = .ok ∧
    (∀ e ∈ (processMessages 3 sampleDir (DispatchEnv.listing (LoopEnv.calm 0 5))
        (deleteQueue false sampleDir DeleteEnv.noFault sampleLoaded 1).2.1).2.2,
      ∀ body, e ≠ .notify 1 body) :=
  have hsize : ∀ p, sampleLoaded.fs.size p < 3 := fun p => by
    unfold Fs.size sampleLoaded Fs.write
    by_cases hp : p = queuePath sampleDir 1 1
    · simp [hp, sampleMessages]
    · simp [hp]
  have h := (processMessages_dispatch 3 sampleDir (DispatchEnv.listing (LoopEnv.calm 0 5))).1
    sampleLoaded rfl (fun _ => ⟨rfl, rfl⟩)
  have hok := h.2 (fun _ _ => rfl) hsize
  ⟨rfl, hsize, hok, h.1 (by rw [hok]; decide), by decide,
    fun e he =>
      ((processMessages_dispatch 3 sampleDir (DispatchEnv.listing (LoopEnv.calm 0 5))).2
        false DeleteEnv.noFault sampleLoaded 1 1 (by decide)
        ⟨sampleQueue, by decide, by decide, by decide⟩ (by decide) e he).2.1⟩

/-- C9 (amended), on the store of queue 1 with the two example messages when
the second `Receive` fails. -/
theorem processQueueMessages_receive_failure_witness :
    (LoopEnv.secondReceiveFails.tick 1).receiveFails = true ∧
    (processQueueMessages 4 sampleDir LoopEnv.secondReceiveFails sampleWorld.cat sampleFs 1 1).1
      = .err .io ∧
    (receives (processQueueMessages 4 sampleDir LoopEnv.secondReceiveFails sampleWorld.cat
        sampleFs 1 1).2.2 ≤ 1 ∨
      ((processQueueMessages 4 sampleDir LoopEnv.secondReceiveFails sampleWorld.cat
          sampleFs 1 1).1 = .err .io ∧
        ∃ pre, (processQueueMessages 4 sampleDir LoopEnv.secondReceiveFails sampleWorld.cat
            sampleFs 1 1).2.2
            = pre ++ [.receive (queuePath sampleDir 1 1) (queueName 1)] ∧
          receives pre = 1)) ∧
    ((processQueueMessages 4 sampleDir LoopEnv.secondReceiveFails sampleWorld.cat
        sampleFs 1 1).2.2 = [] ∨
      ∃ pre, (processQueueMessages 4 sampleDir LoopEnv.secondReceiveFails sampleWorld.cat
        sampleFs 1 1).2.2 = pre ++ [.receive (queuePath sampleDir 1 1) (queueName 1)]) :=
  ⟨rfl, by decide,
    (processQueueMessages_receive_failure 4 sampleDir LoopEnv.secondReceiveFails sampleWorld.cat
      sampleFs 1 1).1 1 rfl,
    (processQueueMessages_receive_failure 4 sampleDir LoopEnv.secondReceiveFails sampleWorld.cat
      sampleFs 1 1).2 .io (by decide)⟩

/-! ## Store addressing: the operations -/

theorem emptyLoop_address (path name : Str) (env : LoopEnv) :
    ∀ (fuel k : Nat) (fs : Fs),
      (∀ e ∈ (emptyLoop path name env fuel k fs).2.2, Ev.address e = some (path, some name)) ∧
      ∀ p, p ≠ path → (emptyLoop path name env fuel k fs).2.1 p = fs p := by
  intro fuel
  induction fuel with
  | zero => intro k fs; exact ⟨fun e he => by simp [emptyLoop] at he, fun _ _ => rfl⟩
  | succ f ih =>
    intro k fs
    cases hr : storeReceive (env.tick k).receiveFails (env.tick k).now env.lease fs path name
      with
    | error e1 =>
      by_cases h1 : e1 = .noRows
      · simp only [emptyLoop, hr, h1, if_true, List.mem_singleton]
        exact ⟨fun e he => by rw [he]; rfl, fun _ _ => trivial⟩
      · simp only [emptyLoop, hr, h1, if_false, List.mem_singleton]
        exact ⟨fun e he => by rw [he]; rfl, fun _ _ => trivial⟩
    | ok pr =>
      obtain ⟨msg, fs1⟩ := pr
      obtain ⟨st, l1, -, -, hfs1⟩ := storeReceive_ok hr
      have h1 : ∀ p, p ≠ path → fs1 p = fs p := by
        intro p hp; rw [hfs1]; exact write_other _ _ _ hp
      cases hd : storeDelete (env.tick k).deleteFails fs1 path name msg.id with
      | error e2 =>
        simp only [emptyLoop, hr, hd, List.mem_cons, List.mem_singleton, List.not_mem_nil,
          or_false]
        exact ⟨fun e he => by rcases he with rfl | rfl <;> rfl, h1⟩
      | ok fs2 =>
        obtain ⟨st1, -, hfs2⟩ := storeDelete_ok hd
        have h2 : ∀ p, p ≠ path → fs2 p = fs1 p := by
          intro p hp; rw [hfs2]; exact write_other _ _ _ hp
        obtain ⟨i1, i2⟩ := ih (k + 1) fs2
        simp only [emptyLoop, hr, hd, List.mem_cons]
        refine ⟨fun e he => ?_, fun p hp => ((i2 p hp).trans (h2 p hp)).trans (h1 p hp)⟩
        rcases he with rfl | rfl | he
        · rfl
        · rfl
        · exact i1 e he

theorem createQueue_address (dir : Str) (env : CreateEnv) (w : World) (q : Queue) :
    (∀ e ∈ (createQueue dir env w q).2.2.1, ∀ path, e = .setup path →
      path = queuePath dir q.workspaceID (createQueue dir env w q).2.2.2.id) ∧
    ∀ p, p ≠ queuePath dir q.workspaceID (createQueue dir env w q).2.2.2.id →
      (createQueue dir env w q).2.1.fs p = w.fs p := by
  have hpath : ∀ id, filepathJoin [filepathJoin [dir, fmtInt q.workspaceID, queuesLit],
      fmtInt id ++ sqliteExt] = queuePath dir q.workspaceID id := fun id => createPath_eq dir _ id
  unfold createQueue
  simp only [hpath]
  split_ifs
  all_goals
    refine ⟨fun e he path hp => ?_, fun p hp => ?_⟩
    · subst hp
      simp at he
      try exact he
    · first
        | rfl
        | exact write_other _ _ _ hp

theorem deleteQueue_address (foreignKeys : Bool) (dir : Str) (env : DeleteEnv) (w : World)
    (id : Int) :
    (∀ e ∈ (deleteQueue foreignKeys dir env w id).2.2,
      ∃ ws, lookupWorkspace env.queryFails w.cat id = .ok ws ∧
        e = .remove (queuePath dir ws id)) ∧
    ∀ ws, lookupWorkspace env.queryFails w.cat id = .ok ws →
      ∀ p, p ≠ queuePath dir ws id → (deleteQueue foreignKeys dir env w id).2.1.fs p = w.fs p := by
  unfold deleteQueue
  by_cases hb : env.beginFails = true
  · simp [hb]
  · cases hl : lookupWorkspace env.queryFails w.cat id with
    | error e => simp [hb]
    | ok ws =>
      by_cases he : env.execFails = true
      · simp [hb, he]
      · by_cases hr : env.removeFails = true
        · simp [hb, he, hr, queuePath]
        · by_cases hc : env.commitFails = true
          · simp only [hb, he, hr, hc, if_true, if_false, Bool.false_eq_true,
              List.mem_singleton, Except.ok.injEq]
            refine ⟨fun e h => ⟨ws, rfl, h⟩, fun ws2 h2 p hp => ?_⟩
            subst h2
            exact if_neg hp
          · simp only [hb, he, hr, hc, if_false, Bool.false_eq_true,
              List.mem_singleton, Except.ok.injEq]
            refine ⟨fun e h => ⟨ws, rfl, h⟩, fun ws2 h2 p hp => ?_⟩
            subst h2
            exact if_neg hp

theorem sendMessage_address (dir : Str) (env : SendEnv) (fs : Fs) (id workspaceID : Int)
    (message : Str) :
    (∀ e ∈ (sendMessage dir env fs id workspaceID message).2.2,
      Ev.address e = some (queuePath dir workspaceID id, some (queueName id))) ∧
    ∀ p, p ≠ queuePath dir workspaceID id →
      (sendMessage dir env fs id workspaceID message).2.1 p = fs p := by
  unfold sendMessage
  by_cases ho : env.openFails = true
  · simp [ho]
  · by_cases hs : env.sendFails = true
    · simp [ho, hs, storeSend, Ev.address, queuePath, queueName]
    · cases hf : fs (queuePath dir workspaceID id) with
      | none =>
        unfold queuePath at hf
        simp [ho, hs, storeSend, hf, Ev.address, queuePath, queueName]
      | some st =>
        unfold queuePath at hf
        simp only [ho, hs, storeSend, hf, if_false, Bool.false_eq_true, List.mem_singleton]
        refine ⟨fun e he => by rw [he]; rfl, fun p hp => write_other _ _ _ hp⟩

theorem emptyQueue_address (fuel : Nat) (dir : Str) (env : LoopEnv) (fs : Fs)
    (id workspaceID : Int) :
    (∀ e ∈ (emptyQueue fuel dir env fs id workspaceID).2.2,
      Ev.address e = some (queuePath dir workspaceID id, some (queueName id))) ∧
    ∀ p, p ≠ queuePath dir workspaceID id →
      (emptyQueue fuel dir env fs id workspaceID).2.1 p = fs p := by
  cases hopen : env.openFails with
  | true =>
    have he : emptyQueue fuel dir env fs id workspaceID = (.err .io, fs, []) := by
      simp [emptyQueue, hopen]
    rw [he]
    constructor
    · intro e h; cases h
    · intro p _; rfl
  | false =>
    have he : emptyQueue fuel dir env fs id workspaceID
        = emptyLoop (queuePath dir workspaceID id) (queueName id) env fuel 0 fs := by
      simp [emptyQueue, hopen, queuePath, queueName]
    rw [he]
    exact emptyLoop_address _ _ env fuel 0 fs

/-- C3: under one workspaces directory every operation addresses the store of
a queue by the same path and name.  `createQueue` sets up the file at
`queuePath` of the workspace and of the id it assigns, `deleteQueue` removes
the file at `queuePath` of the looked-up workspace and the id, `emptyQueue`,
`sendMessage` and `processQueueMessages` receive, send and delete only at
`queuePath` under the name `queue_<id>`, and none of them touches another
file.  The path is the cleaned directory followed by
`<workspace id>/queues/<queue id>.sqlite`, and two paths are equal only for the
same workspace id and queue id. -/
theorem store_addressing (dir : Str) :
    (∀ (env : CreateEnv) (w : World) (q : Queue),
      (∀ e ∈ (createQueue dir env w q).2.2.1, ∀ path, e = .setup path →
        path = queuePath dir q.workspaceID (createQueue dir env w q).2.2.2.id) ∧
      ∀ p, p ≠ queuePath dir q.workspaceID (createQueue dir env w q).2.2.2.id →
        (createQueue dir env w q).2.1.fs p = w.fs p) ∧
    (∀ (foreignKeys : Bool) (env : DeleteEnv) (w : World) (id : Int),
      (∀ e ∈ (deleteQueue foreignKeys dir env w id).2.2,
        ∃ ws, lookupWorkspace env.queryFails w.cat id = .ok ws ∧
          e = .remove (queuePath dir ws id)) ∧
      ∀ ws, lookupWorkspace env.queryFails w.cat id = .ok ws →
        ∀ p, p ≠ queuePath dir ws id →
          (deleteQueue foreignKeys dir env w id).2.1.fs p = w.fs p) ∧
    (∀ (fuel : Nat) (env : LoopEnv) (fs : Fs) (id workspaceID : Int),
      (∀ e ∈ (emptyQueue fuel dir env fs id workspaceID).2.2,
        Ev.address e = some (queuePath dir workspaceID id, some (queueName id))) ∧
      ∀ p, p ≠ queuePath dir workspaceID id →
        (emptyQueue fuel dir env fs id workspaceID).2.1 p = fs p) ∧
    (∀ (env : SendEnv) (fs : Fs) (id workspaceID : Int) (message : Str),
      (∀ e ∈ (sendMessage dir env fs id workspaceID message).2.2,
        Ev.address e = some (queuePath dir workspaceID id, some (queueName id))) ∧
      ∀ p, p ≠ queuePath dir workspaceID id →
        (sendMessage dir env fs id workspaceID message).2.1 p = fs p) ∧
    (∀ (fuel : Nat) (env : LoopEnv) (cat : Catalog) (fs : Fs) (queueID workspaceID : Int),
      (∀ e ∈ (processQueueMessages fuel dir env cat fs queueID workspaceID).2.2,
        Ev.ofQueue (queuePath dir workspaceID queueID) (queueName queueID) queueID e) ∧
      ∀ p, p ≠ queuePath dir workspaceID queueID →
        (processQueueMessages fuel dir env cat fs queueID workspaceID).2.1 p = fs p) ∧
    (∀ workspaceID id : Int,
      queuePath dir workspaceID id
        = dirLead dir ++ (fmtInt workspaceID ++ '/' :: (queuesLit ++ '/' ::
            (fmtInt id ++ sqliteExt))) ∧
      queueName id = ['q', 'u', 'e', 'u', 'e', '_'] ++ fmtInt id) ∧
    (∀ ws id ws2 id2 : Int,
      queuePath dir ws id = queuePath dir ws2 id2 ↔ ws = ws2 ∧ id = id2) := by
  refine ⟨createQueue_address dir, fun fk env w id => deleteQueue_address fk dir env w id,
    fun fuel env fs id ws => emptyQueue_address fuel dir env fs id ws,
    fun env fs id ws m => sendMessage_address dir env fs id ws m,
    fun fuel env cat fs q ws =>
      ⟨processQueueMessages_events fuel dir env cat fs q ws,
        (processQueueMessages_frame fuel dir env cat fs q ws).1⟩,
    fun ws id => ⟨queuePath_eq dir ws id, rfl⟩,
    fun ws id ws2 id2 => ⟨queuePath_inj, fun h => by rw [h.1, h.2]⟩⟩

/-- C3, under `/home/workspaces`: the first `Receive` of `emptyQueue` for queue 1
of workspace 1 addresses `/home/workspaces/1/queues/1.sqlite` under `queue_1`. -/
theorem store_addressing_witness :
    Ev.receive (queuePath sampleDir 1 1) (queueName 1)
      ∈ (emptyQueue 3 sampleDir (LoopEnv.calm 0 5) sampleFs 1 1).2.2 ∧
    Ev.address (Ev.receive (queuePath sampleDir 1 1) (queueName 1))
      = some ("/home/workspaces/1/queues/1.sqlite".toList, some "queue_1".toList) ∧
    ((queuePath sampleDir 1 2 = queuePath sampleDir 1 2) → (1 : Int) = 1 ∧ (2 : Int) = 2) :=
  ⟨by decide,
    ((store_addressing sampleDir).2.2.1 3 (LoopEnv.calm 0 5) sampleFs 1 1).1 _ (by decide),
    ((store_addressing sampleDir).2.2.2.2.2.2 1 2 1 2).1⟩

end QueueDiscover
